import Mathlib

/-!
# MP4FileParser: NAL unit scan, parameter-set cache and sample pacing

A shallow embedding of `examples/streamer/mp4fileparser.cpp` (class `MP4FileParser`).

* Bytes of a `std::vector<std::byte>` are natural numbers; the code only compares them
  with `0x00` and `0x01` and masks the header byte with `0x1F`.
* Every `sample[k]` and the header read through `sample.data() + naluStartIndex` go
  through `readByte`, a checked read: an index outside the buffer is the fault
  `Fault.outOfRange` (the C++ behaviour there is undefined).
* Loops and the self-recursion of `loadNextSample` are driven by a fuel counter;
  running out of fuel is the fault `Fault.outOfFuel`.
* `unsigned` is reduced modulo `2 ^ 32`, `uint64_t` modulo `2 ^ 64`.
* `cv::VideoCapture` is a list of pictures with a read position, `H264Encoder::encode`
  a function of the pictures encoded before and of the current picture. The exception
  `encode` throws on an empty picture does not occur: a picture that was read is not empty.
-/

namespace MP4

/-- The two ways a run of the model can fail to deliver a result. -/
inductive Fault where
  | outOfRange
  | outOfFuel
  deriving DecidableEq, Repr

/-- A byte buffer, `std::vector<std::byte>`. -/
abbrev Bytes := List Nat

instance instDecidableEqExcept {ε α : Type} [DecidableEq ε] [DecidableEq α] :
    DecidableEq (Except ε α)
  | .ok a, .ok b => if h : a = b then isTrue (by rw [h]) else isFalse (by intro e; cases e; exact h rfl)
  | .error a, .error b =>
    if h : a = b then isTrue (by rw [h]) else isFalse (by intro e; cases e; exact h rfl)
  | .ok _, .error _ => isFalse (by intro e; cases e)
  | .error _, .ok _ => isFalse (by intro e; cases e)

/-- The checked read of `sample[i]`. -/
def readByte (sample : Bytes) (i : Nat) : Except Fault Nat :=
  match sample[i]? with
  | some b => .ok b
  | none => .error .outOfRange

/-- The start-code test of lines 92-95 and 105-108: the four comparisons joined by `&&`,
evaluated left to right, a later byte read only when the earlier ones matched. -/
def isStartCode (sample : Bytes) (i : Nat) : Except Fault Bool :=
  (readByte sample i).bind fun b0 =>
  if b0 ≠ 0x00 then .ok false else
  (readByte sample (i + 1)).bind fun b1 =>
  if b1 ≠ 0x00 then .ok false else
  (readByte sample (i + 2)).bind fun b2 =>
  if b2 ≠ 0x00 then .ok false else
  (readByte sample (i + 3)).bind fun b3 =>
  .ok (decide (b3 = 0x01))

/-- Modelled from the spec: `rtc::NalUnitHeader::unitType()`, declared in the library
headers and not part of the sources at hand; the spec gives it as the 5-bit field of
the header byte, mask `0x1F`. -/
def unitType (header : Nat) : Nat := header &&& 0x1F

/-- The three optional members `previousUnitType5`, `previousUnitType7`,
`previousUnitType8` of the class. -/
structure Cache where
  previousUnitType5 : Option Bytes
  previousUnitType7 : Option Bytes
  previousUnitType8 : Option Bytes
  deriving DecidableEq, Repr

/-- The range constructor `{sample.begin() + i, sample.begin() + naluEndIndex}`. -/
def slice (sample : Bytes) (i naluEndIndex : Nat) : Bytes :=
  (sample.drop i).take (naluEndIndex - i)

/-- The `switch (type)` of lines 116-126, applied to the copied range. -/
def observe (c : Cache) (type : Nat) (unit : Bytes) : Cache :=
  match type with
  | 7 => { c with previousUnitType7 := some unit }
  | 8 => { c with previousUnitType8 := some unit }
  | 5 => { c with previousUnitType5 := some unit }
  | _ => c

/-- One unit visited by the scan, recorded for the statements below: the offset `i` of
its start code, `naluStartIndex`, `naluEndIndex` and the `type` read from its header. -/
structure Visit where
  codeAt : Nat
  naluStartIndex : Nat
  naluEndIndex : Nat
  type : Nat
  deriving DecidableEq, Repr

/-- The inner `while` of lines 104-112, started with `naluEndIndex`; the result is the
value of `naluEndIndex` when the loop is left. -/
def findEnd (sample : Bytes) : Nat → Nat → Except Fault Nat
  | 0, _ => .error .outOfFuel
  | fuel + 1, naluEndIndex =>
    if naluEndIndex + 4 ≤ sample.length then
      (isStartCode sample naluEndIndex).bind fun found =>
      if found then .ok naluEndIndex
      else findEnd sample fuel (naluEndIndex + 1)
    else .ok naluEndIndex

/-- The outer `while` of lines 90-128 from offset `i` with cache `c`; `seen` collects the
units visited so far, in the order of the visits. -/
def scan (sample : Bytes) : Nat → Nat → Cache → List Visit → Except Fault (Cache × List Visit)
  | 0, _, _, _ => .error .outOfFuel
  | fuel + 1, i, c, seen =>
    if i + 4 ≤ sample.length then
      (isStartCode sample i).bind fun found =>
      if !found then scan sample fuel (i + 1) c seen
      else
        let naluStartIndex := i + 4
        (findEnd sample (sample.length + 1) naluStartIndex).bind fun naluEndIndex =>
        (readByte sample naluStartIndex).bind fun header =>
        let type := unitType header
        scan sample fuel naluEndIndex (observe c type (slice sample i naluEndIndex))
          (seen ++ [⟨i, naluStartIndex, naluEndIndex, type⟩])
    else .ok (c, seen)

/-- The run of `parseNALUs(sample)` on cache `c`: the new cache and the visited units. -/
def parseTrace (c : Cache) (sample : Bytes) : Except Fault (Cache × List Visit) :=
  scan sample (sample.length + 1) 0 c []

/-- `MP4FileParser::parseNALUs`, as a function of the cache. -/
def parseNALUs (c : Cache) (sample : Bytes) : Except Fault Cache :=
  (parseTrace c sample).map Prod.fst

/-- The units `parseNALUs(sample)` visits, for a run started on the empty cache. -/
def visits (sample : Bytes) : Except Fault (List Visit) :=
  (parseTrace ⟨none, none, none⟩ sample).map Prod.snd

/-- `MP4FileParser::initialNALUS`: the returned bytes, and the cache afterwards. -/
def initialNALUS (c : Cache) : Bytes × Cache :=
  let units : Bytes := []
  let units := match c.previousUnitType7 with
    | some nalu => units ++ nalu
    | none => units
  let units := match c.previousUnitType8 with
    | some nalu => units ++ nalu
    | none => units
  let units := match c.previousUnitType5 with
    | some nalu => units ++ nalu
    | none => units
  (units, c)

/-- A decoded picture delivered by `cv::VideoCapture::read`; only its identity matters. -/
abbrev Frame := Nat

/-- The state of an `MP4FileParser` object.

`frames` and `pos` stand for `cap`: the pictures of the opened file and the index of the
next one to read. `fed` stands for `encoder`: the pictures passed to `encode` so far, in
order, on which the next output of the encoder may depend. `restarts` and `stored` are
not members of the class: they count the executions of line 42-43 (the rewind of the
source) and of lines 82-84 (a new sample is stored). -/
structure MP4FileParser where
  loop : Bool
  frameSkip_ : Nat
  frameDuration_us : Nat
  frames : List Frame
  pos : Nat
  fed : List Frame
  frameIndex : Nat
  sample : Bytes
  sampleTime_us : Nat
  cache : Cache
  restarts : Nat
  stored : Nat
  deriving DecidableEq, Repr

/-- The constructor, lines 6-17, for a file that opens: `frames` are its pictures,
`frameDuration_us` the value computed on line 15 and `frameSkip` the value that
`setInputCameraFPS` leaves in `frameSkip_`. -/
def MP4FileParser.new (frames : List Frame) (frameDuration_us frameSkip : Nat) (loop : Bool) :
    MP4FileParser :=
  { loop := loop, frameSkip_ := frameSkip, frameDuration_us := frameDuration_us,
    frames := frames, pos := 0, fed := [], frameIndex := 0, sample := [],
    sampleTime_us := 0, cache := ⟨none, none, none⟩, restarts := 0, stored := 0 }

/-- `getSample()`. -/
def getSample (s : MP4FileParser) : Bytes := s.sample

/-- `getSampleTime_us()`. -/
def getSampleTime_us (s : MP4FileParser) : Nat := s.sampleTime_us

/-- `getSampleDuration_us()`. -/
def getSampleDuration_us (s : MP4FileParser) : Nat := s.frameDuration_us

/-- `cap.read(frame)`: the next picture and the advanced source, or nothing at the end
of the file. -/
def capRead (s : MP4FileParser) : Option (Frame × MP4FileParser) :=
  match s.frames[s.pos]? with
  | some frame => some (frame, { s with pos := s.pos + 1 })
  | none => none

/-- Lines 39-49 of `loadNextSample`: the state when line 51 is reached together with the
picture read, or the state in which the function returns without one. -/
def acquire (s : MP4FileParser) : MP4FileParser × Option Frame :=
  match capRead s with
  | some (frame, s1) => (s1, some frame)
  | none =>
    if s.loop then
      let s1 := { s with pos := 0, frameIndex := 0, restarts := s.restarts + 1 }
      match capRead s1 with
      | some (frame, s2) => (s2, some frame)
      | none => (s1, none)
    else (s, none)

/-- `MP4FileParser::loadNextSample`, lines 38-86. `encode fed frame` is what
`encoder.encode(frame)` returns after the pictures `fed` were encoded before. The
frame-rate log of lines 59-69 touches no member and is left out. -/
def loadNextSample (encode : List Frame → Frame → Bytes) :
    Nat → MP4FileParser → Except Fault MP4FileParser
  | 0, _ => .error .outOfFuel
  | fuel + 1, s =>
    match acquire s with
    | (s1, none) => .ok s1
    | (s1, some frame) =>
      let s2 := { s1 with frameIndex := (s1.frameIndex + 1) % 2 ^ 32 }
      let encoded := encode s2.fed frame
      let s3 := { s2 with fed := s2.fed ++ [frame] }
      if encoded.isEmpty then loadNextSample encode fuel s3
      else
        let s4 := { s3 with sample := encoded,
                            sampleTime_us := (s3.frameIndex * s3.frameDuration_us) % 2 ^ 64,
                            stored := s3.stored + 1 }
        (parseNALUs s4.cache s4.sample).map fun c => { s4 with cache := c }

/-- `MP4FileParser::start`, lines 21-24. -/
def start (encode : List Frame → Frame → Bytes) (fuel : Nat) (s : MP4FileParser) :
    Except Fault MP4FileParser :=
  loadNextSample encode fuel
    { s with sampleTime_us := (2 ^ 64 - 1 - s.frameDuration_us + 1) % 2 ^ 64 }

/-- `MP4FileParser::stop`, lines 26-30; `frameIndex = -1` on an `unsigned`. -/
def stop (s : MP4FileParser) : MP4FileParser :=
  { s with sample := [], sampleTime_us := 0, frameIndex := 2 ^ 32 - 1 }

/-- `ticks encode fuel n s`: `n` calls of `loadNextSample` one after the other, each
with `fuel`. -/
def ticks (encode : List Frame → Frame → Bytes) (fuel : Nat) :
    Nat → MP4FileParser → Except Fault MP4FileParser
  | 0, s => .ok s
  | n + 1, s => (loadNextSample encode fuel s).bind (ticks encode fuel n)

/-! ## The reference split, in the words of the specification -/

/-- The four bytes `00 00 00 01` occur in `buf` at offset `i`. -/
def startCodeAt (buf : Bytes) (i : Nat) : Bool :=
  (buf.drop i).take 4 == [0x00, 0x00, 0x00, 0x01]

/-- The offsets of `buf` at which `00 00 00 01` occurs, in increasing order. -/
def startCodes (buf : Bytes) : List Nat :=
  (List.range buf.length).filter (startCodeAt buf)

/-- The reference split of the specification: one unit for each offset `i` of a start
code, as `(i, start, end)` with `start = i + 4` and `end` the offset of the next start
code, or the length of the buffer when there is none; in buffer order. -/
def referenceUnits (buf : Bytes) : List (Nat × Nat × Nat) :=
  (startCodes buf).map fun i =>
    (i, i + 4, ((startCodes buf).find? (fun j => i < j)).getD buf.length)

/-- The `(i, start, end)` triples of the units the scan visited. -/
def ranges (vs : List Visit) : List (Nat × Nat × Nat) :=
  vs.map fun v => (v.codeAt, v.naluStartIndex, v.naluEndIndex)

/-- The last unit of type `t` among the visited units, if there is one. -/
def lastOfType (t : Nat) (vs : List Visit) : Option Visit :=
  (vs.filter fun v => v.type = t).getLast?

/-- The empty cache of a freshly constructed object. -/
def Cache.empty : Cache := ⟨none, none, none⟩

/-! ## Definitions used in the statements -/

/-- The effect of one visited unit on the cache: lines 116-126. -/
def cacheStep (sample : Bytes) (c : Cache) (v : Visit) : Cache :=
  observe c v.type (slice sample v.codeAt v.naluEndIndex)

/-- What the scan establishes for a unit it visits: a start code lies at `codeAt`, the
unit starts four bytes later, its type is the masked byte at its start, and its end is
where the inner loop stopped. -/
def Visit.ofScan (sample : Bytes) (v : Visit) : Prop :=
  startCodeAt sample v.codeAt = true ∧ v.codeAt + 4 ≤ sample.length ∧
  v.naluStartIndex = v.codeAt + 4 ∧
  (∃ b, sample[v.naluStartIndex]? = some b ∧ v.type = b &&& 0x1F) ∧
  findEnd sample (sample.length + 1) v.naluStartIndex = .ok v.naluEndIndex

/-- The slot of the cache for the tracked type `t`: 7 (SPS), 8 (PPS) or 5 (IDR). -/
def Cache.slot (c : Cache) (t : Nat) : Option Bytes :=
  match t with
  | 7 => c.previousUnitType7
  | 8 => c.previousUnitType8
  | 5 => c.previousUnitType5
  | _ => none

/-- What one completed call of `loadNextSample` does to the object. -/
structure TickFacts (encode : List Frame → Frame → Bytes) (s s' : MP4FileParser) : Prop where
  loop_eq : s'.loop = s.loop
  frameSkip_eq : s'.frameSkip_ = s.frameSkip_
  frameDuration_eq : s'.frameDuration_us = s.frameDuration_us
  frames_eq : s'.frames = s.frames
  frameIndex_lt : s.frameIndex < 2 ^ 32 → s'.frameIndex < 2 ^ 32
  restarts_le : s.restarts ≤ s'.restarts
  pos_le : s'.pos ≤ s.pos ∨ s'.pos ≤ s.frames.length
  fed_eq : ∃ fs, s'.fed = s.fed ++ fs ∧
    (s'.restarts = s.restarts →
      s'.pos = s.pos + fs.length ∧
      s'.frameIndex % 2 ^ 32 = (s.frameIndex + fs.length) % 2 ^ 32)
  outcome :
    (s'.stored = s.stored ∧ s'.sample = s.sample ∧ s'.sampleTime_us = s.sampleTime_us ∧
      s'.cache = s.cache) ∨
    (s'.stored = s.stored + 1 ∧
      ∃ fed frame, s'.fed = fed ++ [frame] ∧ s.fed.length ≤ fed.length ∧
        encode fed frame ≠ [] ∧ s'.sample = encode fed frame ∧
        s'.sampleTime_us = (s'.frameIndex * s'.frameDuration_us) % 2 ^ 64 ∧
        parseNALUs s.cache s'.sample = .ok s'.cache)

/-- An encoder that has no output for picture 11 and the one byte `01` for any other. -/
def encodeSkipping11 : List Frame → Frame → Bytes :=
  fun _ frame => if frame = 11 then [] else [0x01]

/-- An encoder that returns the one byte `01` for every picture. -/
def encodeOneByte : List Frame → Frame → Bytes :=
  fun _ _ => [0x01]

/-- The object after `start()` on three pictures with `encodeSkipping11`. -/
def afterFirstOfThree : MP4FileParser :=
  ⟨false, 1, 40000, [10, 11, 12], 1, [10], 1, [0x01], 40000, Cache.empty, 0, 1⟩

/-- The object after the following tick, which read the pictures 11 and 12. -/
def afterRetryOfThree : MP4FileParser :=
  ⟨false, 1, 40000, [10, 11, 12], 3, [10, 11, 12], 3, [0x01], 120000, Cache.empty, 0, 2⟩

/-- The sample time is at most the frame index times the frame duration, and the
pictures still ahead in the file overflow neither the 32-bit frame index nor the
64-bit product. It holds after every tick that stored a sample on a file of fewer than
`2 ^ 32` pictures whose length times the frame duration is below `2 ^ 64`. -/
def NoWrap (s : MP4FileParser) : Prop :=
  s.sampleTime_us ≤ s.frameIndex * s.frameDuration_us ∧
  s.frameIndex + (s.frames.length - s.pos) < 2 ^ 32 ∧
  (s.frameIndex + (s.frames.length - s.pos)) * s.frameDuration_us < 2 ^ 64

/-- An encoder whose output for picture 10 holds an SPS, a PPS and an IDR unit. -/
def encodeKeyframe : List Frame → Frame → Bytes :=
  fun _ frame =>
    if frame = 10 then [0, 0, 0, 1, 0x67, 1, 2, 0, 0, 0, 1, 0x68, 3, 0, 0, 0, 1, 0x65, 1, 2, 3, 4, 5]
    else [0, 0, 0, 1, 0x41, 9, 9, 9, 9]

/-- An encoder that returns an empty buffer for every picture. -/
def encodeNothing : List Frame → Frame → Bytes :=
  fun _ _ => []

/-! ## Evaluation at concrete inputs, and `initialNALUS` -/

/-- C1, at the buffer `00 00 00 01 67 AA BB CC DD`: the scan visits one unit, with
payload range `[4, 6)`, while the reference split gives the range `[4, 9)`: the last
unit stops three bytes before the end of the buffer. -/
theorem parseNALUs_last_unit_short :
    (visits [0x00, 0x00, 0x00, 0x01, 0x67, 0xAA, 0xBB, 0xCC, 0xDD]).map ranges = .ok [(0, 4, 6)] ∧
    referenceUnits [0x00, 0x00, 0x00, 0x01, 0x67, 0xAA, 0xBB, 0xCC, 0xDD] = [(0, 4, 9)] := by
  decide

/-- C2, at the buffer `00 00 00 01`: the read of the header byte at `naluStartIndex = 4`
is outside the four-byte buffer, for every cache. -/
theorem parseNALUs_header_read_out_of_range (c : Cache) :
    parseNALUs c [0x00, 0x00, 0x00, 0x01] = .error .outOfRange ∧
    readByte [0x00, 0x00, 0x00, 0x01] (0 + 4) = .error .outOfRange := by
  constructor <;> rfl

/-- C3: after `parseNALUs` on `00 00 00 01 67 AA BB CC DD` the SPS slot holds
`00 00 00 01 67 AA`, the unit without its last three bytes; after `parseNALUs` on
`00 00 00 01 67 AA` it holds the bare start code, without the header byte. -/
theorem parseNALUs_caches_truncated_unit :
    parseNALUs Cache.empty [0x00, 0x00, 0x00, 0x01, 0x67, 0xAA, 0xBB, 0xCC, 0xDD]
      = .ok ⟨none, some [0x00, 0x00, 0x00, 0x01, 0x67, 0xAA], none⟩ ∧
    parseNALUs Cache.empty [0x00, 0x00, 0x00, 0x01, 0x67, 0xAA]
      = .ok ⟨none, some [0x00, 0x00, 0x00, 0x01], none⟩ := by
  decide

/-- C5: `initialNALUS` returns the SPS slot, then the PPS slot, then the IDR slot, an
absent slot giving nothing, and leaves the cache as it was; after one unit of each of
the types 7, 8 and 5 was observed, in any of the six orders, the result is the SPS unit,
the PPS unit and the IDR unit in this order. -/
theorem initialNALUS_sps_pps_idr (c : Cache) (sps pps idr : Bytes) :
    initialNALUS c =
      (c.previousUnitType7.getD [] ++ c.previousUnitType8.getD [] ++ c.previousUnitType5.getD [], c) ∧
    (initialNALUS (observe (observe (observe c 7 sps) 8 pps) 5 idr)).1 = sps ++ pps ++ idr ∧
    (initialNALUS (observe (observe (observe c 7 sps) 5 idr) 8 pps)).1 = sps ++ pps ++ idr ∧
    (initialNALUS (observe (observe (observe c 8 pps) 7 sps) 5 idr)).1 = sps ++ pps ++ idr ∧
    (initialNALUS (observe (observe (observe c 8 pps) 5 idr) 7 sps)).1 = sps ++ pps ++ idr ∧
    (initialNALUS (observe (observe (observe c 5 idr) 7 sps) 8 pps)).1 = sps ++ pps ++ idr ∧
    (initialNALUS (observe (observe (observe c 5 idr) 8 pps) 7 sps)).1 = sps ++ pps ++ idr := by
  refine ⟨?_, ?_, ?_, ?_, ?_, ?_, ?_⟩
  · rcases c with ⟨_ | c5, _ | c7, _ | c8⟩ <;> simp [initialNALUS]
  all_goals simp [initialNALUS, observe]

/-- C6, for a source of two pictures, 40000 microseconds per frame and an encoder that
returns the one byte `01` for every picture: after construction and `start()` the
sample time is 40000, one frame duration and not 0; after the next `loadNextSample()`
it is 80000, two frame durations. -/
theorem start_first_sample_time_is_one_duration :
    (start (fun _ _ => [0x01]) 1 (MP4FileParser.new [10, 11] 40000 1 true)).map
        (fun s => (getSample s, getSampleTime_us s, getSampleDuration_us s))
      = .ok ([0x01], 40000, 40000) ∧
    ((start (fun _ _ => [0x01]) 1 (MP4FileParser.new [10, 11] 40000 1 true)).bind
        (loadNextSample (fun _ _ => [0x01]) 1)).map
        (fun s => (getSample s, getSampleTime_us s, getSampleDuration_us s))
      = .ok ([0x01], 80000, 40000) := by
  decide

/-! ## The scan: general facts -/

theorem readByte_of_lt (sample : Bytes) (i : Nat) (h : i < sample.length) :
    readByte sample i = .ok (sample.get ⟨i, h⟩) := by
  simp [readByte, List.getElem?_eq_getElem h]

theorem readByte_eq_ok {sample : Bytes} {i b : Nat} (h : readByte sample i = .ok b) :
    sample[i]? = some b := by
  unfold readByte at h
  split at h
  · rename_i x hx
    cases h
    exact hx
  · cases h

theorem startCode_cases (a b c d : Nat) (rest : Bytes) :
    (if a ≠ 0 then Except.ok false
      else if b ≠ 0 then Except.ok false
      else if c ≠ 0 then Except.ok false else Except.ok (decide (d = 1)) : Except Fault Bool)
      = Except.ok (List.take 4 (a :: b :: c :: d :: rest) == [0, 0, 0, 1]) := by
  by_cases e0 : a = 0 <;> by_cases e1 : b = 0 <;>
    by_cases e2 : c = 0 <;> by_cases e3 : d = 1 <;>
    simp [e0, e1, e2, e3]

/-- Inside the guard `i + 4 <= sample.size()` the start-code test reads inside the
buffer and answers whether `00 00 00 01` occurs at `i`. -/
theorem isStartCode_of_le (sample : Bytes) (i : Nat) (h : i + 4 ≤ sample.length) :
    isStartCode sample i = .ok (startCodeAt sample i) := by
  have h0 : i < sample.length := by omega
  have h1 : i + 1 < sample.length := by omega
  have h2 : i + 2 < sample.length := by omega
  have h3 : i + 3 < sample.length := by omega
  have hd : sample.drop i = sample[i] :: sample[i + 1] :: sample[i + 2] :: sample[i + 3] ::
      sample.drop (i + 4) := by
    rw [List.drop_eq_getElem_cons h0, List.drop_eq_getElem_cons h1,
      List.drop_eq_getElem_cons h2, List.drop_eq_getElem_cons h3]
  unfold isStartCode startCodeAt
  rw [readByte_of_lt _ _ h0, readByte_of_lt _ _ h1, readByte_of_lt _ _ h2,
    readByte_of_lt _ _ h3]
  simp only [Except.bind, List.get_eq_getElem]
  rw [hd]
  exact startCode_cases _ _ _ _ _

/-- The inner loop ends, with enough fuel: it delivers the first offset from
`naluEndIndex` on at which a start code lies, and otherwise the first offset at which
fewer than four bytes are left. -/
theorem findEnd_spec (sample : Bytes) :
    ∀ (fuel e : Nat), 0 < fuel → sample.length < fuel + e →
      ∃ e', findEnd sample fuel e = .ok e' ∧ e ≤ e' ∧
        (e' + 4 ≤ sample.length → startCodeAt sample e' = true) ∧
        (∀ j, e ≤ j → j < e' → startCodeAt sample j = false) ∧
        (e' = e ∨ e' + 3 ≤ sample.length) := by
  intro fuel
  induction fuel with
  | zero => intro e h; omega
  | succ fuel ih =>
    intro e _ hlen
    unfold findEnd
    by_cases hle : e + 4 ≤ sample.length
    · rw [if_pos hle, isStartCode_of_le _ _ hle]
      simp only [Except.bind]
      cases hsc : startCodeAt sample e
      · obtain ⟨e', h1, h2, h3, h4, h5⟩ := ih (e + 1) (by omega) (by omega)
        refine ⟨e', by simpa using h1, by omega, h3, ?_, by omega⟩
        intro j hj hj'
        by_cases hje : j = e
        · rw [hje]; exact hsc
        · exact h4 j (by omega) hj'
      · refine ⟨e, by simp, le_refl _, fun _ => hsc, ?_, Or.inl rfl⟩
        intro j hj hj'
        omega
    · rw [if_neg hle]
      refine ⟨e, rfl, le_refl _, fun h => absurd h hle, ?_, Or.inl rfl⟩
      intro j hj hj'
      omega

/-- The outer loop, when it ends without fault: the units it appends to `seen` are
visited left to right and the cache is the fold of `cacheStep` over them. -/
theorem scan_spec (sample : Bytes) :
    ∀ (fuel i : Nat) (c : Cache) (seen : List Visit) (r : Cache × List Visit),
      scan sample fuel i c seen = .ok r →
      ∃ vs, r.2 = seen ++ vs ∧ r.1 = vs.foldl (cacheStep sample) c ∧
        (∀ v ∈ vs, Visit.ofScan sample v ∧ i ≤ v.codeAt) ∧
        vs.Pairwise (fun a b => a.naluEndIndex ≤ b.codeAt) := by
  intro fuel
  induction fuel with
  | zero => intro i c seen r h; simp [scan] at h
  | succ fuel ih =>
    intro i c seen r h
    unfold scan at h
    by_cases hle : i + 4 ≤ sample.length
    · rw [if_pos hle, isStartCode_of_le _ _ hle] at h
      simp only [Except.bind] at h
      cases hsc : startCodeAt sample i
      · rw [hsc] at h
        obtain ⟨vs, h1, h2, h3, h4⟩ := ih (i + 1) c seen r (by simpa using h)
        exact ⟨vs, h1, h2, fun v hv => ⟨(h3 v hv).1, by have := (h3 v hv).2; omega⟩, h4⟩
      · rw [hsc] at h
        simp only [Bool.not_true, Bool.false_eq_true, if_false] at h
        cases hfe : findEnd sample (sample.length + 1) (i + 4) with
        | error e => rw [hfe] at h; cases h
        | ok e =>
          rw [hfe] at h
          cases hrb : readByte sample (i + 4) with
          | error e => rw [hrb] at h; cases h
          | ok b =>
            rw [hrb] at h
            obtain ⟨vs, h1, h2, h3, h4⟩ := ih e _ _ r h
            obtain ⟨e', he1, he2, -⟩ := findEnd_spec sample (sample.length + 1) (i + 4)
              (by omega) (by omega)
            have hee : e' = e := by rw [hfe] at he1; cases he1; rfl
            refine ⟨⟨i, i + 4, e, unitType b⟩ :: vs, by simpa using h1,
              by simpa [cacheStep] using h2, ?_,
              List.pairwise_cons.2 ⟨fun v hv => (h3 v hv).2, h4⟩⟩
            intro v hv
            rcases List.mem_cons.1 hv with hv | hv
            · subst hv
              exact ⟨⟨hsc, hle, rfl, ⟨b, readByte_eq_ok hrb, rfl⟩, hfe⟩, le_refl _⟩
            · exact ⟨(h3 v hv).1, by have := (h3 v hv).2; omega⟩
    · rw [if_neg hle] at h
      cases h
      exact ⟨[], by simp, rfl, by simp, List.Pairwise.nil⟩

/-- The outer loop ends without fault, with enough fuel, on every buffer that does not
end with a start code. -/
theorem scan_ok (sample : Bytes) (hend : ¬ [0x00, 0x00, 0x00, 0x01] <:+ sample) :
    ∀ (fuel i : Nat) (c : Cache) (seen : List Visit), 0 < fuel → sample.length < fuel + i →
      ∃ r, scan sample fuel i c seen = .ok r := by
  intro fuel
  induction fuel with
  | zero => intro i c seen h; omega
  | succ fuel ih =>
    intro i c seen _ hlen
    unfold scan
    by_cases hle : i + 4 ≤ sample.length
    · rw [if_pos hle, isStartCode_of_le _ _ hle]
      simp only [Except.bind]
      cases hsc : startCodeAt sample i
      · simpa using ih (i + 1) c seen (by omega) (by omega)
      · simp only [Bool.not_true, Bool.false_eq_true, if_false]
        obtain ⟨e, he1, he2, -⟩ := findEnd_spec sample (sample.length + 1) (i + 4)
          (by omega) (by omega)
        rw [he1]
        have hlt : i + 4 < sample.length := by
          rcases Nat.lt_or_ge (i + 4) sample.length with h | h
          · exact h
          · exfalso
            apply hend
            have hlen4 : (sample.drop i).length = 4 := by rw [List.length_drop]; omega
            have hd : sample.drop i = [0, 0, 0, 1] := by
              have := hsc
              unfold startCodeAt at this
              rw [List.take_of_length_le (by omega)] at this
              simpa using this
            exact ⟨sample.take i, by rw [← hd, List.take_append_drop]⟩
        rw [readByte_of_lt _ _ hlt]
        exact ih e _ _ (by omega) (by omega)
    · rw [if_neg hle]
      exact ⟨_, rfl⟩

theorem observe_slot (c : Cache) (type : Nat) (unit : Bytes) (t : Nat)
    (ht : t = 7 ∨ t = 8 ∨ t = 5) :
    (observe c type unit).slot t = if type = t then some unit else c.slot t := by
  unfold observe
  rcases ht with rfl | rfl | rfl <;> split <;> simp_all [Cache.slot]

theorem observe_other (c : Cache) (type : Nat) (unit : Bytes)
    (h7 : type ≠ 7) (h8 : type ≠ 8) (h5 : type ≠ 5) : observe c type unit = c := by
  unfold observe
  split <;> simp_all

theorem foldl_cacheStep_slot (sample : Bytes) (t : Nat) (ht : t = 7 ∨ t = 8 ∨ t = 5)
    (vs : List Visit) (c : Cache) :
    (vs.foldl (cacheStep sample) c).slot t =
      match lastOfType t vs with
      | some v => some (slice sample v.codeAt v.naluEndIndex)
      | none => c.slot t := by
  induction vs using List.reverseRecOn with
  | nil => simp [lastOfType]
  | append_singleton init v ih =>
    rw [List.foldl_append]
    simp only [List.foldl_cons, List.foldl_nil, cacheStep]
    rw [observe_slot _ _ _ _ ht]
    by_cases hv : v.type = t
    · simp [lastOfType, List.filter_append, hv]
    · have : lastOfType t (init ++ [v]) = lastOfType t init := by
        simp [lastOfType, List.filter_append, hv]
      rw [this, if_neg hv]
      simpa [cacheStep] using ih

/-! ## The cache after `parseNALUs` -/

/-- C4: `parseNALUs(buf)` on cache `c` runs to its end on every buffer that does not end
with a start code, and when it has run to its end with cache `c'` and visited units `vs`:
every visited unit starts four bytes after its start code and its type is the byte at
its start masked with `0x1F`; the units are listed in buffer order, each ending before
the start code of the next; the cache is the result of the visits in this order; for
each tracked type `t` (7, 8, 5) the slot of `t` is the slice of `buf` from the start code
of the last visited unit of type `t` to the end of that unit as the scan delimited it,
and is the slot of `c` when no unit of type `t` was visited; a unit of any other type
changes no slot. -/
theorem parseNALUs_slots (c : Cache) (buf : Bytes) :
    (¬ [0x00, 0x00, 0x00, 0x01] <:+ buf → ∃ r, parseTrace c buf = .ok r) ∧
    ∀ (c' : Cache) (vs : List Visit), parseTrace c buf = .ok (c', vs) →
      parseNALUs c buf = .ok c' ∧
      (∀ v ∈ vs, v.naluStartIndex = v.codeAt + 4 ∧
        ∃ b, buf[v.naluStartIndex]? = some b ∧ v.type = b &&& 0x1F) ∧
      vs.Pairwise (fun a b => a.codeAt + 4 ≤ a.naluEndIndex ∧ a.naluEndIndex ≤ b.codeAt) ∧
      c' = vs.foldl (cacheStep buf) c ∧
      (∀ t, t = 7 ∨ t = 8 ∨ t = 5 →
        c'.slot t =
          match lastOfType t vs with
          | some v => some (slice buf (v.naluStartIndex - 4) v.naluEndIndex)
          | none => c.slot t) ∧
      (∀ (c0 : Cache) (v : Visit), v.type ≠ 7 → v.type ≠ 8 → v.type ≠ 5 →
        cacheStep buf c0 v = c0) := by
  refine ⟨fun hend => scan_ok buf hend _ _ _ _ (by omega) (by omega), ?_⟩
  intro c' vs h
  obtain ⟨ws, h1, h2, h3, h4⟩ := scan_spec buf _ _ _ _ _ h
  simp only [List.nil_append] at h1 h2
  subst h1
  have hstart : ∀ v ∈ vs, v.naluStartIndex = v.codeAt + 4 := fun v hv => (h3 v hv).1.2.2.1
  refine ⟨?_, ?_, ?_, h2, ?_, ?_⟩
  · simp [parseNALUs, h, Except.map]
  · intro v hv
    exact ⟨hstart v hv, (h3 v hv).1.2.2.2.1⟩
  · refine List.Pairwise.imp_of_mem ?_ h4
    intro a b ha _ hab
    refine ⟨?_, hab⟩
    obtain ⟨-, -, ha3, -, ha5⟩ := (h3 a ha).1
    obtain ⟨e', he1, he2, -⟩ := findEnd_spec buf (buf.length + 1) a.naluStartIndex
      (by omega) (by omega)
    rw [ha5] at he1
    cases he1
    omega
  · intro t ht
    rw [h2, foldl_cacheStep_slot buf t ht vs c]
    cases hl : lastOfType t vs with
    | none => rfl
    | some v =>
      have hmem : v ∈ vs := by
        unfold lastOfType at hl
        exact (List.mem_filter.1 (List.mem_of_getLast?_eq_some hl)).1
      simp only [hstart v hmem, Nat.add_sub_cancel]
  · intro c0 v h7 h8 h5
    exact observe_other _ _ _ h7 h8 h5

/-- C4 at work on `09 | 00 00 00 01 67 01 02 | 00 00 00 01 68 03 | 00 00 00 01 65 01 02 03 04 05`
with the empty cache. -/
theorem parseNALUs_slots_witness :
    ¬ [0x00, 0x00, 0x00, 0x01] <:+
        [9, 0, 0, 0, 1, 0x67, 1, 2, 0, 0, 0, 1, 0x68, 3, 0, 0, 0, 1, 0x65, 1, 2, 3, 4, 5] ∧
    parseTrace Cache.empty
        [9, 0, 0, 0, 1, 0x67, 1, 2, 0, 0, 0, 1, 0x68, 3, 0, 0, 0, 1, 0x65, 1, 2, 3, 4, 5]
      = .ok (⟨some [0, 0, 0, 1, 0x65, 1, 2], some [0, 0, 0, 1, 0x67, 1, 2], some [0, 0, 0, 1, 0x68, 3]⟩,
          [⟨1, 5, 8, 7⟩, ⟨8, 12, 14, 8⟩, ⟨14, 18, 21, 5⟩]) ∧
    (∃ r, parseTrace Cache.empty
        [9, 0, 0, 0, 1, 0x67, 1, 2, 0, 0, 0, 1, 0x68, 3, 0, 0, 0, 1, 0x65, 1, 2, 3, 4, 5] = .ok r) ∧
    parseNALUs Cache.empty
        [9, 0, 0, 0, 1, 0x67, 1, 2, 0, 0, 0, 1, 0x68, 3, 0, 0, 0, 1, 0x65, 1, 2, 3, 4, 5]
      = .ok ⟨some [0, 0, 0, 1, 0x65, 1, 2], some [0, 0, 0, 1, 0x67, 1, 2], some [0, 0, 0, 1, 0x68, 3]⟩ :=
  ⟨by decide, by decide,
    (parseNALUs_slots Cache.empty _).1 (by decide),
    ((parseNALUs_slots Cache.empty _).2 _ [⟨1, 5, 8, 7⟩, ⟨8, 12, 14, 8⟩, ⟨14, 18, 21, 5⟩]
      (by decide)).1⟩

/-! ## The pacer: general facts -/

/-- Lines 39-49 when a picture was read: nothing but the source position, the frame
index and the restart count changed, and without a restart the position advanced by
one and the frame index stayed. -/
theorem acquire_some {s s1 : MP4FileParser} {frame : Frame}
    (h : acquire s = (s1, some frame)) :
    s1.loop = s.loop ∧ s1.frameSkip_ = s.frameSkip_ ∧
    s1.frameDuration_us = s.frameDuration_us ∧ s1.frames = s.frames ∧
    s1.fed = s.fed ∧ s1.sample = s.sample ∧ s1.sampleTime_us = s.sampleTime_us ∧
    s1.cache = s.cache ∧ s1.stored = s.stored ∧ s.restarts ≤ s1.restarts ∧
    s1.pos ≤ s.frames.length ∧
    (s1.restarts = s.restarts →
      s1.pos = s.pos + 1 ∧ s1.frameIndex = s.frameIndex ∧ s.frames[s.pos]? = some frame) ∧
    (s1.restarts ≠ s.restarts →
      s1.restarts = s.restarts + 1 ∧ s1.pos = 1 ∧ s1.frameIndex = 0 ∧ s.loop = true ∧
      s.frames[s.pos]? = none ∧ s.frames[0]? = some frame) := by
  unfold acquire capRead at h
  cases h0 : s.frames[s.pos]? with
  | some f =>
    rw [h0] at h
    simp only [Prod.mk.injEq, Option.some.injEq] at h
    obtain ⟨rfl, rfl⟩ := h
    have := (List.getElem?_eq_some.1 h0).1
    refine ⟨rfl, rfl, rfl, rfl, rfl, rfl, rfl, rfl, rfl, le_refl _, ?_, ?_, ?_⟩
    · simp only; omega
    · intro _; exact ⟨rfl, rfl, rfl⟩
    · intro hne; exact absurd rfl hne
  | none =>
    rw [h0] at h
    cases hl : s.loop with
    | false => rw [hl] at h; simp at h
    | true =>
      rw [hl] at h
      simp only [if_true] at h
      cases h1 : s.frames[0]? with
      | none => rw [h1] at h; simp at h
      | some f =>
        rw [h1] at h
        simp only [Prod.mk.injEq, Option.some.injEq] at h
        obtain ⟨rfl, rfl⟩ := h
        have := (List.getElem?_eq_some.1 h1).1
        refine ⟨rfl, rfl, rfl, rfl, rfl, rfl, rfl, rfl, rfl, ?_, ?_, ?_, ?_⟩
        · simp only; omega
        · simp only; omega
        · intro h; simp only at h; omega
        · intro _; exact ⟨rfl, rfl, rfl, rfl, rfl, rfl⟩

/-- Lines 39-49 when no picture was read: either nothing changed (looping disabled),
or the source was rewound and the frame index reset (looping enabled, empty source). -/
theorem acquire_none {s s1 : MP4FileParser} (h : acquire s = (s1, none)) :
    s.frames[s.pos]? = none ∧
    ((s.loop = false ∧ s1 = s) ∨
     (s.loop = true ∧ s.frames[0]? = none ∧
      s1 = { s with pos := 0, frameIndex := 0, restarts := s.restarts + 1 })) := by
  unfold acquire capRead at h
  cases h0 : s.frames[s.pos]? with
  | some f => rw [h0] at h; simp at h
  | none =>
    rw [h0] at h
    refine ⟨rfl, ?_⟩
    cases hl : s.loop with
    | false =>
      rw [hl] at h
      simp only [Bool.false_eq_true, if_false, Prod.mk.injEq, and_true] at h
      exact Or.inl ⟨rfl, h.symm⟩
    | true =>
      rw [hl] at h
      simp only [if_true] at h
      cases h1 : s.frames[0]? with
      | some f => rw [h1] at h; simp at h
      | none =>
        rw [h1] at h
        simp only [Prod.mk.injEq, and_true] at h
        exact Or.inr ⟨rfl, rfl, h.symm⟩

theorem loadNextSample_facts (encode : List Frame → Frame → Bytes) :
    ∀ (fuel : Nat) (s s' : MP4FileParser),
      loadNextSample encode fuel s = .ok s' → TickFacts encode s s' := by
  intro fuel
  induction fuel with
  | zero => intro s s' h; simp [loadNextSample] at h
  | succ fuel ih =>
    intro s s' h
    unfold loadNextSample at h
    cases hacq : acquire s with
    | mk s1 fo =>
    rw [hacq] at h
    cases fo with
    | none =>
      simp only [Except.ok.injEq] at h
      subst h
      obtain ⟨-, hc⟩ := acquire_none hacq
      rcases hc with ⟨-, rfl⟩ | ⟨-, -, rfl⟩
      · exact ⟨rfl, rfl, rfl, rfl, fun hfi => hfi, le_refl _, Or.inl (le_refl _),
          ⟨[], by simp, fun _ => ⟨rfl, rfl⟩⟩, Or.inl ⟨rfl, rfl, rfl, rfl⟩⟩
      · refine ⟨rfl, rfl, rfl, rfl, fun _ => by simp, by simp, Or.inl (by simp),
          ⟨[], by simp, fun h => ?_⟩,
          Or.inl ⟨rfl, rfl, rfl, rfl⟩⟩
        simp at h
    | some frame =>
      obtain ⟨a1, a2, a3, a4, a5, a6, a7, a8, a9, a10, a11, a12, a13⟩ := acquire_some hacq
      simp only at h
      by_cases hemp : (encode s1.fed frame).isEmpty = true
      · rw [if_pos hemp] at h
        have := ih _ _ h
        obtain ⟨b1, b2, b3, b4, b5, b6, b7, ⟨fs, b8, b9⟩, b10⟩ := this
        simp only at b1 b2 b3 b4 b6 b7 b8 b9 b10
        refine ⟨by rw [b1, a1], by rw [b2, a2], by rw [b3, a3], by rw [b4, a4],
          fun _ => b5 (Nat.mod_lt _ (by norm_num)), by omega,
          Or.inr (by rw [a4] at b7; rcases b7 with b7 | b7 <;> omega), ⟨frame :: fs, by rw [b8, a5]; simp, fun hr => ?_⟩, ?_⟩
        · have hr1 : s1.restarts = s.restarts := by omega
          obtain ⟨c1, c2, -⟩ := a12 hr1
          obtain ⟨d1, d2⟩ := b9 (by omega)
          refine ⟨by rw [d1, c1]; simp; omega, ?_⟩
          rw [d2, c2]
          simp only [List.length_cons, Nat.add_mod, Nat.mod_mod]
          omega
        · rcases b10 with ⟨e1, e2, e3, e4⟩ | ⟨e1, fed, fr, e2, e3, e4, e5, e6, e7⟩
          · exact Or.inl ⟨by rw [e1, a9], by rw [e2, a6], by rw [e3, a7], by rw [e4, a8]⟩
          · refine Or.inr ⟨by rw [e1, a9], fed, fr, e2, ?_, e4, e5, e6, by rw [← a8]; exact e7⟩
            simp only [List.length_append, List.length_singleton] at e3
            rw [← a5]; omega
      · rw [if_neg hemp] at h
        cases hp : parseNALUs s1.cache (encode s1.fed frame) with
        | error e => simp [hp, Except.map] at h
        | ok c =>
          simp only [hp, Except.map, Except.ok.injEq] at h
          subst h
          have hne : encode s1.fed frame ≠ [] := by
            intro h0; apply hemp; rw [h0]; rfl
          refine ⟨a1, a2, a3, a4, fun _ => Nat.mod_lt _ (by norm_num), a10, Or.inr a11,
            ⟨[frame], by simp [a5], fun hr => ?_⟩, ?_⟩
          · obtain ⟨c1, c2, -⟩ := a12 hr
            exact ⟨by simp [c1], by simp [c2]⟩
          · exact Or.inr ⟨by simp [a9], s1.fed, frame, rfl, by rw [a5], hne, rfl, rfl,
              by rw [← a8]; exact hp⟩

/-! ## The pacer: timestamps -/

/-- C7 fails on a retry and on a loop restart. First conjunct: three pictures, no output
for the second; the tick after `start()` stores a sample whose time is 120000, the
previous time 40000 plus two frame durations. Second conjunct: two pictures, looping
enabled; the third tick stores a sample whose time is 40000, while the previous time
was 80000. -/
theorem loadNextSample_time_step_not_one_duration :
    (∃ s s', start encodeSkipping11 2 (MP4FileParser.new [10, 11, 12] 40000 1 false) = .ok s ∧
      loadNextSample encodeSkipping11 2 s = .ok s' ∧
      s.stored = 1 ∧ s'.stored = s.stored + 1 ∧
      getSampleTime_us s = 40000 ∧ getSampleTime_us s' = 120000 ∧
      getSampleTime_us s' ≠ getSampleTime_us s + getSampleDuration_us s) ∧
    (∃ s s', ticks encodeOneByte 1 2 (MP4FileParser.new [10, 11] 40000 1 true) = .ok s ∧
      loadNextSample encodeOneByte 1 s = .ok s' ∧
      s.stored = 2 ∧ s'.stored = s.stored + 1 ∧
      getSampleTime_us s = 80000 ∧ getSampleTime_us s' = 40000 ∧
      getSampleTime_us s' ≠ getSampleTime_us s + getSampleDuration_us s) := by
  refine ⟨⟨_, _, rfl, rfl, ?_⟩, ⟨_, _, rfl, rfl, ?_⟩⟩ <;> decide

/-- C7, amended: a completed tick that stores a sample, does not rewind the source and
starts where the sample time is the frame index times the frame duration (as after a
tick that stored a sample) adds to the sample time one frame duration for every
picture it read, in 64-bit arithmetic, as long as the 32-bit frame index does not
wrap; that is one frame duration when it read one picture. -/
theorem loadNextSample_time_advances (encode : List Frame → Frame → Bytes) (fuel : Nat)
    (s s' : MP4FileParser)
    (h : loadNextSample encode fuel s = .ok s')
    (hstored : s'.stored = s.stored + 1)
    (hrestart : s'.restarts = s.restarts)
    (hprev : getSampleTime_us s = (s.frameIndex * getSampleDuration_us s) % 2 ^ 64)
    (hwrap : s.frameIndex + (s'.fed.length - s.fed.length) < 2 ^ 32) :
    getSampleDuration_us s' = getSampleDuration_us s ∧
    getSampleTime_us s' =
      (getSampleTime_us s + (s'.fed.length - s.fed.length) * getSampleDuration_us s) % 2 ^ 64 ∧
    (s'.fed.length = s.fed.length + 1 →
      getSampleTime_us s' = (getSampleTime_us s + getSampleDuration_us s) % 2 ^ 64) := by
  have F := loadNextSample_facts encode fuel s s' h
  obtain ⟨fs, hfed, hfs⟩ := F.fed_eq
  obtain ⟨-, hidx⟩ := hfs hrestart
  have hk : s'.fed.length - s.fed.length = fs.length := by
    rw [hfed, List.length_append]; omega
  rw [hk] at hwrap ⊢
  have hlt' : s'.frameIndex < 2 ^ 32 := F.frameIndex_lt (by omega)
  have hfi : s'.frameIndex = s.frameIndex + fs.length := by
    rw [Nat.mod_eq_of_lt hlt', Nat.mod_eq_of_lt hwrap] at hidx
    exact hidx
  have htime : s'.sampleTime_us = (s'.frameIndex * s'.frameDuration_us) % 2 ^ 64 := by
    rcases F.outcome with ⟨e1, -⟩ | ⟨-, fed, fr, -, -, -, -, e6, -⟩
    · omega
    · exact e6
  have hmain : getSampleTime_us s' =
      (getSampleTime_us s + fs.length * getSampleDuration_us s) % 2 ^ 64 := by
    unfold getSampleTime_us getSampleDuration_us at *
    rw [htime, hprev, hfi, F.frameDuration_eq, Nat.add_mul]
    omega
  refine ⟨F.frameDuration_eq, hmain, fun h1 => ?_⟩
  have : fs.length = 1 := by omega
  rw [hmain, this, Nat.one_mul]

/-- C7, amended, at work: the tick after `start()` on three pictures reads two of them
(a retry), and the sample time goes from 40000 to 120000. -/
theorem loadNextSample_time_advances_witness :
    loadNextSample encodeSkipping11 2 afterFirstOfThree = .ok afterRetryOfThree ∧
    getSampleTime_us afterRetryOfThree =
      (getSampleTime_us afterFirstOfThree +
        (afterRetryOfThree.fed.length - afterFirstOfThree.fed.length) *
          getSampleDuration_us afterFirstOfThree) % 2 ^ 64 :=
  ⟨by decide,
    (loadNextSample_time_advances encodeSkipping11 2 afterFirstOfThree afterRetryOfThree
      (by decide) (by decide) (by decide) (by decide) (by decide)).2.1⟩

/-- C8 fails at a loop restart: two pictures, looping enabled; after two ticks the
sample time is 80000, and the third tick stores a sample with time 40000. -/
theorem loadNextSample_time_decreases_at_restart :
    ∃ s s', ticks encodeOneByte 1 2 (MP4FileParser.new [10, 11] 40000 1 true) = .ok s ∧
      loadNextSample encodeOneByte 1 s = .ok s' ∧
      s'.stored = s.stored + 1 ∧ s'.restarts = s.restarts + 1 ∧
      getSampleTime_us s = 80000 ∧ getSampleTime_us s' = 40000 ∧
      ¬ getSampleTime_us s ≤ getSampleTime_us s' := by
  refine ⟨_, _, rfl, rfl, ?_⟩
  decide

theorem loadNextSample_monotone (encode : List Frame → Frame → Bytes) (fuel : Nat)
    (s s' : MP4FileParser) (h : loadNextSample encode fuel s = .ok s') :
    s.restarts ≤ s'.restarts ∧
    (NoWrap s → s'.restarts = s.restarts →
      s.sampleTime_us ≤ s'.sampleTime_us ∧ NoWrap s') := by
  have F := loadNextSample_facts encode fuel s s' h
  refine ⟨F.restarts_le, ?_⟩
  intro ⟨n1, n2, n3⟩ hr
  obtain ⟨fs, hfed, hfs⟩ := F.fed_eq
  obtain ⟨hpos, hidx⟩ := hfs hr
  have hlt' : s'.frameIndex < 2 ^ 32 := F.frameIndex_lt (by omega)
  have hk : fs.length ≤ s.frames.length - s.pos := by
    rcases F.pos_le with hp | hp <;> omega
  have hfi : s'.frameIndex = s.frameIndex + fs.length := by
    rw [Nat.mod_eq_of_lt hlt', Nat.mod_eq_of_lt (by omega)] at hidx
    exact hidx
  have hsum : s'.frameIndex + (s'.frames.length - s'.pos) =
      s.frameIndex + (s.frames.length - s.pos) := by
    rw [F.frames_eq]; omega
  have hmul : s.frameIndex * s.frameDuration_us ≤ s'.frameIndex * s.frameDuration_us :=
    Nat.mul_le_mul_right _ (by omega)
  have hbound : s'.frameIndex * s.frameDuration_us < 2 ^ 64 :=
    lt_of_le_of_lt (Nat.mul_le_mul_right _ (by omega)) n3
  have hle' : s'.sampleTime_us ≤ s'.frameIndex * s.frameDuration_us ∧
      s.sampleTime_us ≤ s'.sampleTime_us := by
    rcases F.outcome with ⟨-, -, e3, -⟩ | ⟨-, fed, fr, -, -, -, -, e6, -⟩
    · rw [e3]; exact ⟨le_trans n1 hmul, le_refl _⟩
    · rw [e6, F.frameDuration_eq, Nat.mod_eq_of_lt hbound]
      exact ⟨le_refl _, le_trans n1 hmul⟩
  refine ⟨hle'.2, ?_, ?_, ?_⟩
  · rw [F.frameDuration_eq]; exact hle'.1
  · rw [hsum]; exact n2
  · rw [hsum, F.frameDuration_eq]; exact n3

/-- C8, amended: over any sequence of completed `loadNextSample()` calls in which the
source is not rewound, started where `NoWrap` holds, the sample time never decreases
(and `NoWrap` holds again at the end). -/
theorem ticks_time_monotone (encode : List Frame → Frame → Bytes) (fuel : Nat) :
    ∀ (n : Nat) (s s' : MP4FileParser), ticks encode fuel n s = .ok s' →
      s.restarts ≤ s'.restarts ∧
      (NoWrap s → s'.restarts = s.restarts →
        getSampleTime_us s ≤ getSampleTime_us s' ∧ NoWrap s') := by
  intro n
  induction n with
  | zero =>
    intro s s' h
    simp only [ticks, Except.ok.injEq] at h
    subst h
    exact ⟨le_refl _, fun hn _ => ⟨le_refl _, hn⟩⟩
  | succ n ih =>
    intro s s' h
    unfold ticks at h
    cases h1 : loadNextSample encode fuel s with
    | error e => rw [h1] at h; cases h
    | ok s1 =>
      rw [h1] at h
      obtain ⟨r1, m1⟩ := loadNextSample_monotone encode fuel s s1 h1
      obtain ⟨r2, m2⟩ := ih s1 s' h
      refine ⟨le_trans r1 r2, fun hn hr => ?_⟩
      obtain ⟨t1, hn1⟩ := m1 hn (by omega)
      obtain ⟨t2, hn2⟩ := m2 hn1 (by omega)
      exact ⟨le_trans t1 t2, hn2⟩

/-- C8, amended, at work: two ticks after `start()` on three pictures, looping enabled,
no rewind: the sample time goes from 40000 to 120000. -/
theorem ticks_time_monotone_witness :
    ticks encodeOneByte 1 2 ⟨true, 1, 40000, [10, 11, 12], 1, [10], 1, [0x01], 40000, Cache.empty, 0, 1⟩
      = .ok ⟨true, 1, 40000, [10, 11, 12], 3, [10, 11, 12], 3, [0x01], 120000, Cache.empty, 0, 3⟩ ∧
    NoWrap ⟨true, 1, 40000, [10, 11, 12], 1, [10], 1, [0x01], 40000, Cache.empty, 0, 1⟩ ∧
    getSampleTime_us ⟨true, 1, 40000, [10, 11, 12], 1, [10], 1, [0x01], 40000, Cache.empty, 0, 1⟩
      ≤ getSampleTime_us
        ⟨true, 1, 40000, [10, 11, 12], 3, [10, 11, 12], 3, [0x01], 120000, Cache.empty, 0, 3⟩ :=
  ⟨by decide, by unfold NoWrap; decide,
    ((ticks_time_monotone encodeOneByte 1 2
      ⟨true, 1, 40000, [10, 11, 12], 1, [10], 1, [0x01], 40000, Cache.empty, 0, 1⟩
      ⟨true, 1, 40000, [10, 11, 12], 3, [10, 11, 12], 3, [0x01], 120000, Cache.empty, 0, 3⟩
      (by decide)).2 (by unfold NoWrap; decide) (by decide)).1⟩

/-- After `start()` on a fresh object, when it stored a sample without rewinding the
source, `NoWrap` holds on every file of fewer than `2 ^ 32` pictures whose length times
the frame duration is below `2 ^ 64`. -/
theorem start_noWrap (encode : List Frame → Frame → Bytes) (fuel : Nat)
    (frames : List Frame) (dur skip : Nat) (loop : Bool) (s : MP4FileParser)
    (h : start encode fuel (MP4FileParser.new frames dur skip loop) = .ok s)
    (hstored : s.stored = 1) (hrestart : s.restarts = 0)
    (hlen : frames.length < 2 ^ 32) (hdur : frames.length * dur < 2 ^ 64) : NoWrap s := by
  have F := loadNextSample_facts encode fuel _ s h
  obtain ⟨fs, hfed, hfs⟩ := F.fed_eq
  obtain ⟨hpos, hidx⟩ := hfs (by simp [MP4FileParser.new, hrestart])
  have hlt' : s.frameIndex < 2 ^ 32 := F.frameIndex_lt (by simp [MP4FileParser.new])
  have hfr := F.frames_eq
  have hd := F.frameDuration_eq
  have hp := F.pos_le
  simp only [MP4FileParser.new] at hpos hidx hfr hd hp
  have hk : fs.length ≤ frames.length := by
    rcases hp with hp | hp <;> omega
  have hfi : s.frameIndex = fs.length := by
    rw [Nat.mod_eq_of_lt hlt', Nat.zero_add, Nat.mod_eq_of_lt (by omega)] at hidx
    exact hidx
  have hsum : s.frameIndex + (s.frames.length - s.pos) = frames.length := by
    rw [hfr]; omega
  refine ⟨?_, by omega, by rw [hsum, hd]; exact hdur⟩
  rcases F.outcome with ⟨e1, -⟩ | ⟨-, fed, fr, -, -, -, -, e6, -⟩
  · simp [MP4FileParser.new] at e1; omega
  · rw [e6]; exact Nat.mod_le _ _

/-! ## The pacer: the stored sample -/

/-- C9: after every completed tick that stored a sample, `getSample()` is the whole
buffer the encoder returned for the last picture passed to it, which was not empty,
and `getSampleTime_us()` is the frame index after the tick times the frame duration,
modulo `2 ^ 64`. -/
theorem loadNextSample_stores_encoded (encode : List Frame → Frame → Bytes) (fuel : Nat)
    (s s' : MP4FileParser)
    (h : loadNextSample encode fuel s = .ok s')
    (hstored : s'.stored = s.stored + 1) :
    (∃ fed frame, s'.fed = fed ++ [frame] ∧ encode fed frame ≠ [] ∧
      getSample s' = encode fed frame) ∧
    getSampleTime_us s' = (s'.frameIndex * getSampleDuration_us s') % 2 ^ 64 := by
  have F := loadNextSample_facts encode fuel s s' h
  rcases F.outcome with ⟨e1, -⟩ | ⟨-, fed, fr, e2, -, e4, e5, e6, -⟩
  · omega
  · exact ⟨⟨fed, fr, e2, e4, e5⟩, e6⟩

/-- C9 at work: the tick on a fresh object stores the 23 bytes returned for picture 10,
with time `1 * 40000`. -/
theorem loadNextSample_stores_encoded_witness :
    (loadNextSample encodeKeyframe 1 (MP4FileParser.new [10, 11] 40000 1 true)).map
        (fun s => (getSample s, getSampleTime_us s, s.frameIndex, s.stored))
      = .ok ([0, 0, 0, 1, 0x67, 1, 2, 0, 0, 0, 1, 0x68, 3, 0, 0, 0, 1, 0x65, 1, 2, 3, 4, 5],
          40000, 1, 1) ∧
    getSampleTime_us
        ⟨true, 1, 40000, [10, 11], 1, [10], 1,
          [0, 0, 0, 1, 0x67, 1, 2, 0, 0, 0, 1, 0x68, 3, 0, 0, 0, 1, 0x65, 1, 2, 3, 4, 5], 40000,
          ⟨some [0, 0, 0, 1, 0x65, 1, 2], some [0, 0, 0, 1, 0x67, 1, 2], some [0, 0, 0, 1, 0x68, 3]⟩,
          0, 1⟩ = (1 * 40000) % 2 ^ 64 :=
  ⟨by decide,
    (loadNextSample_stores_encoded encodeKeyframe 1 (MP4FileParser.new [10, 11] 40000 1 true)
      ⟨true, 1, 40000, [10, 11], 1, [10], 1,
        [0, 0, 0, 1, 0x67, 1, 2, 0, 0, 0, 1, 0x68, 3, 0, 0, 0, 1, 0x65, 1, 2, 3, 4, 5], 40000,
        ⟨some [0, 0, 0, 1, 0x65, 1, 2], some [0, 0, 0, 1, 0x67, 1, 2], some [0, 0, 0, 1, 0x68, 3]⟩,
        0, 1⟩ (by decide) (by decide)).2⟩

/-! ## The pacer: `stop()` -/

/-- C10 fails when the source has a picture to deliver: on a fresh object with two
pictures, `stop()` followed by `loadNextSample()` stores the sample `01`, and the frame
index is 0 and no longer `2 ^ 32 - 1`. -/
theorem stop_loadNextSample_stores_sample :
    ∃ s', loadNextSample encodeOneByte 1 (stop (MP4FileParser.new [10, 11] 40000 1 false)) = .ok s' ∧
      getSample (stop (MP4FileParser.new [10, 11] 40000 1 false)) = [] ∧
      getSample s' = [0x01] ∧
      (stop (MP4FileParser.new [10, 11] 40000 1 false)).frameIndex = 2 ^ 32 - 1 ∧
      s'.frameIndex = 0 ∧
      s' ≠ stop (MP4FileParser.new [10, 11] 40000 1 false) := by
  refine ⟨_, rfl, ?_⟩
  decide

/-- C10, amended: with looping disabled and no picture left in the source, `stop()`
followed by `loadNextSample()` leaves the stopped object as it is: the sample empty,
the time 0, the frame index `2 ^ 32 - 1` and the cache that of before `stop()`. -/
theorem stop_loadNextSample_noop (encode : List Frame → Frame → Bytes) (fuel : Nat)
    (s : MP4FileParser) (hloop : s.loop = false) (hend : s.frames.length ≤ s.pos) :
    loadNextSample encode (fuel + 1) (stop s) = .ok (stop s) ∧
    getSample (stop s) = [] ∧ getSampleTime_us (stop s) = 0 ∧
    (stop s).frameIndex = 2 ^ 32 - 1 ∧ (stop s).cache = s.cache := by
  refine ⟨?_, rfl, rfl, rfl, rfl⟩
  have hnone : s.frames[s.pos]? = none := List.getElem?_eq_none hend
  simp [loadNextSample, acquire, capRead, stop, hnone, hloop]

/-- C10, amended, at work on an object whose two pictures were read. -/
theorem stop_loadNextSample_noop_witness :
    loadNextSample encodeOneByte 1
        (stop ⟨false, 1, 40000, [10, 11], 2, [10, 11], 2, [0x01], 80000, Cache.empty, 0, 2⟩)
      = .ok (stop ⟨false, 1, 40000, [10, 11], 2, [10, 11], 2, [0x01], 80000, Cache.empty, 0, 2⟩) :=
  (stop_loadNextSample_noop encodeOneByte 0
    ⟨false, 1, 40000, [10, 11], 2, [10, 11], 2, [0x01], 80000, Cache.empty, 0, 2⟩
    (by decide) (by decide)).1

/-! ## Exhausted source, buffers without start code -/

/-- C11: with looping disabled and no picture left in the source, a call of
`loadNextSample()` returns the object as it was, and so does every number of further
calls: sample, sample time, frame index and the three cache slots are untouched. -/
theorem loadNextSample_exhausted_noop (encode : List Frame → Frame → Bytes) (fuel n : Nat)
    (s : MP4FileParser) (hloop : s.loop = false) (hend : s.frames.length ≤ s.pos) :
    loadNextSample encode (fuel + 1) s = .ok s ∧
    ticks encode (fuel + 1) n s = .ok s ∧
    (ticks encode (fuel + 1) n s).map
        (fun r => (getSample r, getSampleTime_us r, r.frameIndex, r.cache, r.stored))
      = .ok (getSample s, getSampleTime_us s, s.frameIndex, s.cache, s.stored) := by
  have hnone : s.frames[s.pos]? = none := List.getElem?_eq_none hend
  have h1 : loadNextSample encode (fuel + 1) s = .ok s := by
    simp [loadNextSample, acquire, capRead, hnone, hloop]
  have h2 : ticks encode (fuel + 1) n s = .ok s := by
    induction n with
    | zero => rfl
    | succ n ih => simp [ticks, h1, Except.bind, ih]
  exact ⟨h1, h2, by rw [h2]; rfl⟩

/-- C11 at work: three further ticks on an object whose two pictures were read. -/
theorem loadNextSample_exhausted_noop_witness :
    ticks encodeOneByte 1 3
        ⟨false, 1, 40000, [10, 11], 2, [10, 11], 2, [0x01], 80000, Cache.empty, 0, 2⟩
      = .ok ⟨false, 1, 40000, [10, 11], 2, [10, 11], 2, [0x01], 80000, Cache.empty, 0, 2⟩ :=
  (loadNextSample_exhausted_noop encodeOneByte 0 3
    ⟨false, 1, 40000, [10, 11], 2, [10, 11], 2, [0x01], 80000, Cache.empty, 0, 2⟩
    (by decide) (by decide)).2.1

theorem startCodeAt_infix {buf : Bytes} {i : Nat} (h : startCodeAt buf i = true) :
    [0x00, 0x00, 0x00, 0x01] <:+: buf := by
  unfold startCodeAt at h
  have h4 : (buf.drop i).take 4 = [0, 0, 0, 1] := by simpa using h
  refine ⟨buf.take i, (buf.drop i).drop 4, ?_⟩
  rw [← h4, List.append_assoc, List.take_append_drop, List.take_append_drop]

/-- On a buffer without start code the outer loop walks to the end and changes
nothing. -/
theorem scan_no_start_code (sample : Bytes) (hno : ∀ j, startCodeAt sample j = false) :
    ∀ (fuel i : Nat) (c : Cache) (seen : List Visit), 0 < fuel → sample.length < fuel + i →
      scan sample fuel i c seen = .ok (c, seen) := by
  intro fuel
  induction fuel with
  | zero => intro i c seen h; omega
  | succ fuel ih =>
    intro i c seen _ hlen
    unfold scan
    by_cases hle : i + 4 ≤ sample.length
    · rw [if_pos hle, isStartCode_of_le _ _ hle, hno i]
      simpa [Except.bind] using ih (i + 1) c seen (by omega) (by omega)
    · rw [if_neg hle]

/-- C14: on a buffer of fewer than four bytes, or in which `00 00 00 01` does not
occur, `parseNALUs` runs to its end, visits no unit and returns the cache it was given,
so that `initialNALUS()` returns the same bytes after the call as before. -/
theorem parseNALUs_no_start_code (c : Cache) (buf : Bytes)
    (h : buf.length < 4 ∨ ¬ [0x00, 0x00, 0x00, 0x01] <:+: buf) :
    parseTrace c buf = .ok (c, []) ∧ visits buf = .ok [] ∧ parseNALUs c buf = .ok c ∧
    (parseNALUs c buf).map (fun c' => (initialNALUS c').1) = .ok (initialNALUS c).1 := by
  have hno : ∀ j, startCodeAt buf j = false := by
    intro j
    cases hj : startCodeAt buf j with
    | false => rfl
    | true =>
      exfalso
      have hin := startCodeAt_infix hj
      rcases h with h | h
      · have := hin.length_le
        simp at this
        omega
      · exact h hin
  have key : ∀ c0, parseTrace c0 buf = .ok (c0, []) := fun c0 =>
    scan_no_start_code buf hno _ _ _ _ (by omega) (by omega)
  refine ⟨key c, ?_, ?_, ?_⟩
  · simp [visits, key, Except.map]
  · simp [parseNALUs, key, Except.map]
  · simp [parseNALUs, key, Except.map]

/-- C14 at work on the three-byte buffer `00 00 01` and on a buffer with a three-byte
start code only. -/
theorem parseNALUs_no_start_code_witness :
    parseNALUs ⟨none, some [0, 0, 0, 1, 0x67, 1], none⟩ [0x00, 0x00, 0x01] =
      .ok ⟨none, some [0, 0, 0, 1, 0x67, 1], none⟩ ∧
    parseNALUs ⟨none, some [0, 0, 0, 1, 0x67, 1], none⟩ [0x00, 0x00, 0x01, 0x65, 0x88, 0x84] =
      .ok ⟨none, some [0, 0, 0, 1, 0x67, 1], none⟩ :=
  ⟨(parseNALUs_no_start_code _ [0x00, 0x00, 0x01] (Or.inl (by decide))).2.2.1,
   (parseNALUs_no_start_code _ [0x00, 0x00, 0x01, 0x65, 0x88, 0x84] (Or.inr (by decide))).2.2.1⟩

/-! ## The pacer: single ticks -/

theorem parseNALUs_ok (c : Cache) (buf : Bytes) (hend : ¬ [0x00, 0x00, 0x00, 0x01] <:+ buf) :
    ∃ c', parseNALUs c buf = .ok c' := by
  obtain ⟨r, hr⟩ := scan_ok buf hend (buf.length + 1) 0 c [] (by omega) (by omega)
  exact ⟨r.1, by simp [parseNALUs, parseTrace, hr, Except.map]⟩

/-- A tick that finds a picture at the read position, gets a non-empty buffer for it
and parses that buffer to its end: the object afterwards. -/
theorem loadNextSample_one (encode : List Frame → Frame → Bytes) (fuel : Nat)
    (s : MP4FileParser) (f : Frame) (c : Cache)
    (hread : s.frames[s.pos]? = some f) (hne : encode s.fed f ≠ [])
    (hc : parseNALUs s.cache (encode s.fed f) = .ok c) :
    loadNextSample encode (fuel + 1) s =
      .ok { s with pos := s.pos + 1, frameIndex := (s.frameIndex + 1) % 2 ^ 32,
                   fed := s.fed ++ [f], sample := encode s.fed f,
                   sampleTime_us := ((s.frameIndex + 1) % 2 ^ 32 * s.frameDuration_us) % 2 ^ 64,
                   stored := s.stored + 1, cache := c } := by
  have hemp : (encode s.fed f).isEmpty = false := by
    cases h : encode s.fed f with
    | nil => exact absurd h hne
    | cons a l => rfl
  simp [loadNextSample, acquire, capRead, hread, hemp, hc, Except.map]

/-- A tick that finds the source at its end with looping enabled, rewinds it, gets a
non-empty buffer for the first picture and parses that buffer to its end: the object
afterwards. -/
theorem loadNextSample_rewind_one (encode : List Frame → Frame → Bytes) (fuel : Nat)
    (s : MP4FileParser) (f : Frame) (c : Cache)
    (hloop : s.loop = true) (hend : s.frames[s.pos]? = none) (hread : s.frames[0]? = some f)
    (hne : encode s.fed f ≠ []) (hc : parseNALUs s.cache (encode s.fed f) = .ok c) :
    loadNextSample encode (fuel + 1) s =
      .ok { s with pos := 1, frameIndex := 1, restarts := s.restarts + 1,
                   fed := s.fed ++ [f], sample := encode s.fed f,
                   sampleTime_us := (1 * s.frameDuration_us) % 2 ^ 64,
                   stored := s.stored + 1, cache := c } := by
  have hemp : (encode s.fed f).isEmpty = false := by
    cases h : encode s.fed f with
    | nil => exact absurd h hne
    | cons a l => rfl
  simp [loadNextSample, acquire, capRead, hread, hend, hloop, hemp, hc, Except.map]

/-! ## The skip factor -/

theorem acquire_frameSkip (s : MP4FileParser) (k : Nat) :
    acquire { s with frameSkip_ := k } =
      ({ (acquire s).1 with frameSkip_ := k }, (acquire s).2) := by
  unfold acquire capRead
  cases h0 : s.frames[s.pos]? with
  | some f => simp [h0]
  | none =>
    cases hl : s.loop with
    | false => simp [h0, hl]
    | true =>
      cases h1 : s.frames[0]? with
      | some f => simp [h0, hl, h1]
      | none => simp [h0, hl, h1]

/-- C18: `loadNextSample()` on an object that differs from `s` only in `frameSkip_`
gives the result it gives on `s`, with that other `frameSkip_`: the same fault, or the
same sample, sample time, frame index and cache; and whenever the call reads a
picture for which the encoder returns a non-empty buffer, that buffer becomes the
sample (when the parse runs to its end), whatever `frameSkip_` is. -/
theorem loadNextSample_ignores_frameSkip (encode : List Frame → Frame → Bytes) (k : Nat) :
    (∀ (fuel : Nat) (s : MP4FileParser),
      loadNextSample encode fuel { s with frameSkip_ := k } =
        (loadNextSample encode fuel s).map (fun r => { r with frameSkip_ := k })) ∧
    (∀ (fuel : Nat) (s : MP4FileParser),
      (loadNextSample encode fuel { s with frameSkip_ := k }).map
          (fun r => (getSample r, getSampleTime_us r, r.frameIndex, r.cache)) =
        (loadNextSample encode fuel s).map
          (fun r => (getSample r, getSampleTime_us r, r.frameIndex, r.cache))) ∧
    (∀ (fuel : Nat) (s s1 : MP4FileParser) (frame : Frame),
      acquire s = (s1, some frame) → encode s1.fed frame ≠ [] →
      (loadNextSample encode (fuel + 1) { s with frameSkip_ := k }).map getSample =
        (parseNALUs s1.cache (encode s1.fed frame)).map (fun _ => encode s1.fed frame)) := by
  have main : ∀ (fuel : Nat) (s : MP4FileParser),
      loadNextSample encode fuel { s with frameSkip_ := k } =
        (loadNextSample encode fuel s).map (fun r => { r with frameSkip_ := k }) := by
    intro fuel
    induction fuel with
    | zero => intro s; rfl
    | succ fuel ih =>
      intro s
      unfold loadNextSample
      rw [acquire_frameSkip]
      cases hacq : acquire s with
      | mk s1 fo =>
      cases fo with
      | none => rfl
      | some frame =>
        simp only
        by_cases hemp : (encode s1.fed frame).isEmpty = true
        · rw [if_pos hemp, if_pos hemp]
          exact ih { s1 with frameIndex := (s1.frameIndex + 1) % 2 ^ 32,
                             fed := s1.fed ++ [frame] }
        · rw [if_neg hemp, if_neg hemp]
          cases parseNALUs s1.cache (encode s1.fed frame) <;> rfl
  refine ⟨main, ?_, ?_⟩
  · intro fuel s
    rw [main]
    cases loadNextSample encode fuel s <;> rfl
  · intro fuel s s1 frame hacq hne
    rw [main]
    have hemp : (encode s1.fed frame).isEmpty = false := by
      cases h : encode s1.fed frame with
      | nil => exact absurd h hne
      | cons a l => rfl
    unfold loadNextSample
    rw [hacq]
    simp only [hemp]
    cases parseNALUs s1.cache (encode s1.fed frame) <;> rfl

/-- C18 at work: a fresh object on two pictures with skip factor 1 and with skip
factor 4; the first tick stores the encoder's buffer in both. -/
theorem loadNextSample_ignores_frameSkip_witness :
    (loadNextSample encodeOneByte 1 (MP4FileParser.new [10, 11] 40000 4 true)).map getSample
      = .ok [0x01] ∧
    (loadNextSample encodeOneByte 1 (MP4FileParser.new [10, 11] 40000 1 true)).map getSample
      = .ok [0x01] :=
  ⟨(loadNextSample_ignores_frameSkip encodeOneByte 4).2.2 0
      (MP4FileParser.new [10, 11] 40000 1 true)
      ⟨true, 1, 40000, [10, 11], 1, [], 0, [], 0, Cache.empty, 0, 0⟩ 10 (by decide) (by decide),
   by decide⟩

/-! ## The pacer: after `stop()`, and across a loop restart -/

/-- C19: after `stop()` the frame index is `2 ^ 32 - 1`; when the source has a picture
at the read position, the encoder returns a non-empty buffer for it and that buffer
does not end with a start code, the next `loadNextSample()`, called directly or
through `start()`, runs to its end, the frame index is 0 (`2 ^ 32 - 1 + 1` wrapped)
and `getSampleTime_us()` is 0; the sample is the encoder's buffer. -/
theorem stop_then_tick_time_zero (encode : List Frame → Frame → Bytes) (fuel : Nat)
    (s : MP4FileParser) (f : Frame)
    (hread : s.frames[s.pos]? = some f) (hne : encode s.fed f ≠ [])
    (hend : ¬ [0x00, 0x00, 0x00, 0x01] <:+ encode s.fed f) :
    (stop s).frameIndex = 2 ^ 32 - 1 ∧
    (∃ s', loadNextSample encode (fuel + 1) (stop s) = .ok s' ∧
      s'.frameIndex = 0 ∧ getSampleTime_us s' = 0 ∧ getSample s' = encode s.fed f) ∧
    (∃ s', start encode (fuel + 1) (stop s) = .ok s' ∧
      s'.frameIndex = 0 ∧ getSampleTime_us s' = 0 ∧ getSample s' = encode s.fed f) := by
  obtain ⟨c, hc⟩ := parseNALUs_ok s.cache (encode s.fed f) hend
  refine ⟨rfl, ?_, ?_⟩
  · refine ⟨_, loadNextSample_one encode fuel (stop s) f c hread hne hc, ?_, ?_, rfl⟩
    · simp [stop]
    · simp [stop, getSampleTime_us]
  · refine ⟨_, loadNextSample_one encode fuel _ f c hread hne hc, ?_, ?_, rfl⟩
    · simp [stop]
    · simp [stop, getSampleTime_us]

/-- C19 at work: two pictures read, then `stop()`, then a tick on a looping source
whose read position was put back to the first picture. -/
theorem stop_then_tick_time_zero_witness :
    (loadNextSample encodeOneByte 1
        (stop ⟨true, 1, 40000, [10, 11], 1, [10], 1, [0x01], 40000, Cache.empty, 0, 1⟩)).map
        (fun r => (r.frameIndex, getSampleTime_us r, getSample r)) = .ok (0, 0, [0x01]) ∧
    ∃ s', start encodeOneByte 1
        (stop ⟨true, 1, 40000, [10, 11], 1, [10], 1, [0x01], 40000, Cache.empty, 0, 1⟩) = .ok s' ∧
      s'.frameIndex = 0 ∧ getSampleTime_us s' = 0 ∧ getSample s' = encodeOneByte [10] 11 :=
  ⟨by decide,
    (stop_then_tick_time_zero encodeOneByte 0
      ⟨true, 1, 40000, [10, 11], 1, [10], 1, [0x01], 40000, Cache.empty, 0, 1⟩ 11
      (by decide) (by decide) (by decide)).2.2⟩

/-- The object after a tick that reads one picture, field by field. -/
theorem loadNextSample_one_fields (encode : List Frame → Frame → Bytes) (s : MP4FileParser)
    (f : Frame) (hread : s.frames[s.pos]? = some f) (hne : encode s.fed f ≠ [])
    (hend : ¬ [0x00, 0x00, 0x00, 0x01] <:+ encode s.fed f) :
    ∃ s', loadNextSample encode 1 s = .ok s' ∧ s'.pos = s.pos + 1 ∧
      s'.frames = s.frames ∧ s'.loop = s.loop ∧ s'.restarts = s.restarts ∧
      s'.stored = s.stored + 1 ∧ s'.frameDuration_us = s.frameDuration_us ∧
      s'.frameIndex = (s.frameIndex + 1) % 2 ^ 32 ∧ s'.sample = encode s.fed f ∧
      s'.sampleTime_us = ((s.frameIndex + 1) % 2 ^ 32 * s.frameDuration_us) % 2 ^ 64 := by
  obtain ⟨c, hc⟩ := parseNALUs_ok s.cache (encode s.fed f) hend
  exact ⟨_, loadNextSample_one encode 0 s f c hread hne hc, rfl, rfl, rfl, rfl, rfl, rfl, rfl,
    rfl, rfl⟩

/-- The object after a tick that rewinds the source and reads its first picture, field
by field. -/
theorem loadNextSample_rewind_one_fields (encode : List Frame → Frame → Bytes)
    (s : MP4FileParser) (f : Frame)
    (hloop : s.loop = true) (hnone : s.frames[s.pos]? = none) (hread : s.frames[0]? = some f)
    (hne : encode s.fed f ≠ []) (hend : ¬ [0x00, 0x00, 0x00, 0x01] <:+ encode s.fed f) :
    ∃ s', loadNextSample encode 1 s = .ok s' ∧ s'.pos = 1 ∧
      s'.restarts = s.restarts + 1 ∧ s'.stored = s.stored + 1 ∧
      s'.frameIndex = 1 ∧ s'.sample = encode s.fed f ∧
      s'.sampleTime_us = (1 * s.frameDuration_us) % 2 ^ 64 := by
  obtain ⟨c, hc⟩ := parseNALUs_ok s.cache (encode s.fed f) hend
  exact ⟨_, loadNextSample_rewind_one encode 0 s f c hloop hnone hread hne hc, rfl, rfl, rfl,
    rfl, rfl, rfl⟩

/-- Ticks that each read one picture, on a source with enough pictures left and an
encoder that depends on the picture only, with non-empty buffers that do not end with
a start code. -/
theorem ticks_advance (g : Frame → Bytes) :
    ∀ (n : Nat) (s : MP4FileParser), s.pos + n ≤ s.frames.length →
      (∀ f ∈ s.frames, g f ≠ [] ∧ ¬ [0x00, 0x00, 0x00, 0x01] <:+ g f) →
      ∃ s', ticks (fun _ f => g f) 1 n s = .ok s' ∧ s'.pos = s.pos + n ∧
        s'.frames = s.frames ∧ s'.loop = s.loop ∧ s'.restarts = s.restarts ∧
        s'.stored = s.stored + n ∧ s'.frameDuration_us = s.frameDuration_us := by
  intro n
  induction n with
  | zero => intro s _ _; exact ⟨s, rfl, rfl, rfl, rfl, rfl, rfl, rfl⟩
  | succ n ih =>
    intro s hpos hg
    have hlt : s.pos < s.frames.length := by omega
    have hread : s.frames[s.pos]? = some (s.frames[s.pos]) := List.getElem?_eq_getElem hlt
    obtain ⟨hne, hend⟩ := hg _ (List.getElem_mem hlt)
    obtain ⟨s1, h1, p1, p2, p3, p4, p5, p6, -⟩ :=
      loadNextSample_one_fields (fun _ f => g f) s _ hread hne hend
    obtain ⟨s', t1, t2, t3, t4, t5, t6, t7⟩ := ih s1 (by rw [p1, p2]; omega) (by rw [p2]; exact hg)
    refine ⟨s', ?_, by omega, by rw [t3, p2], by rw [t4, p3], by rw [t5, p4], by omega,
      by rw [t7, p6]⟩
    unfold ticks
    rw [h1]
    exact t1

/-- C12: looping enabled, a source of `N = rest.length + 1` pictures, an encoder that
depends on the picture only and returns non-empty buffers that do not end with a start
code. `start()` and `N - 1` further ticks run to their end without rewinding the
source; the next tick rewinds it once and stores the sample of tick 1 again, with the
sample time of tick 1, which is one frame duration. -/
theorem loop_restart_repeats_first_tick (g : Frame → Bytes) (f0 : Frame) (rest : List Frame)
    (dur skip : Nat)
    (hg : ∀ f ∈ f0 :: rest, g f ≠ [] ∧ ¬ [0x00, 0x00, 0x00, 0x01] <:+ g f) :
    ∃ s1 sN s',
      start (fun _ f => g f) 1 (MP4FileParser.new (f0 :: rest) dur skip true) = .ok s1 ∧
      ticks (fun _ f => g f) 1 rest.length s1 = .ok sN ∧
      loadNextSample (fun _ f => g f) 1 sN = .ok s' ∧
      s1.stored = 1 ∧ sN.stored = rest.length + 1 ∧ s'.stored = rest.length + 2 ∧
      sN.restarts = 0 ∧ s'.restarts = 1 ∧
      getSample s1 = g f0 ∧ getSample s' = getSample s1 ∧
      getSampleTime_us s' = getSampleTime_us s1 ∧
      getSampleTime_us s1 = (1 * dur) % 2 ^ 64 := by
  obtain ⟨hne, hend⟩ := hg f0 (List.mem_cons_self _ _)
  obtain ⟨s1, h1, p1, p2, p3, p4, p5, p6, p7, p8, p9⟩ :=
    loadNextSample_one_fields (fun _ f => g f)
      { MP4FileParser.new (f0 :: rest) dur skip true with
        sampleTime_us := (2 ^ 64 - 1 - dur + 1) % 2 ^ 64 } f0
      (by simp [MP4FileParser.new]) hne hend
  simp only [MP4FileParser.new] at p1 p2 p3 p4 p5 p6 p7 p8 p9
  obtain ⟨sN, t1, t2, t3, t4, t5, t6, t7⟩ := ticks_advance g rest.length s1
    (by rw [p1, p2]; simp; omega) (by rw [p2]; exact hg)
  have hnone : sN.frames[sN.pos]? = none := by
    apply List.getElem?_eq_none
    rw [t2, t3, p1, p2]; simp; omega
  obtain ⟨s', h3, q1, q2, q3, q4, q5, q6⟩ :=
    loadNextSample_rewind_one_fields (fun _ f => g f) sN f0 (by rw [t4, p3]) hnone
      (by rw [t3, p2]; simp) hne hend
  refine ⟨s1, sN, s', h1, t1, h3, by omega, by omega, by omega, by omega, by omega, p8, ?_, ?_,
    ?_⟩
  · simp only [getSample, q5, p8]
  · simp only [getSampleTime_us, q6, p9, t7, p6]
    norm_num
  · simp only [getSampleTime_us, p9]
    norm_num

/-- C12 at work on three pictures, with an encoder that returns the number of the
picture as its one byte. -/
theorem loop_restart_repeats_first_tick_witness :
    ∃ s1 sN s',
      start (fun _ f => [f]) 1 (MP4FileParser.new [10, 11, 12] 40000 1 true) = .ok s1 ∧
      ticks (fun _ f => [f]) 1 [11, 12].length s1 = .ok sN ∧
      loadNextSample (fun _ f => [f]) 1 sN = .ok s' ∧
      s1.stored = 1 ∧ sN.stored = [11, 12].length + 1 ∧ s'.stored = [11, 12].length + 2 ∧
      sN.restarts = 0 ∧ s'.restarts = 1 ∧
      getSample s1 = [10] ∧ getSample s' = getSample s1 ∧
      getSampleTime_us s' = getSampleTime_us s1 ∧
      getSampleTime_us s1 = (1 * 40000) % 2 ^ 64 :=
  loop_restart_repeats_first_tick (fun f => [f]) 10 [11, 12] 40000 1 (by decide)

/-! ## The cache: idempotence and persistence -/

/-- The units the outer loop visits do not depend on the cache it is given. -/
theorem scan_visits_indep (sample : Bytes) :
    ∀ (fuel i : Nat) (c c2 : Cache) (seen : List Visit),
      (scan sample fuel i c seen).map Prod.snd = (scan sample fuel i c2 seen).map Prod.snd := by
  intro fuel
  induction fuel with
  | zero => intro i c c2 seen; rfl
  | succ fuel ih =>
    intro i c c2 seen
    unfold scan
    by_cases hle : i + 4 ≤ sample.length
    · rw [if_pos hle, if_pos hle, isStartCode_of_le _ _ hle]
      simp only [Except.bind]
      cases startCodeAt sample i
      · simpa using ih (i + 1) c c2 seen
      · simp only [Bool.not_true, Bool.false_eq_true, if_false]
        cases findEnd sample (sample.length + 1) (i + 4) with
        | error e => rfl
        | ok e =>
          cases readByte sample (i + 4) with
          | error e => rfl
          | ok b => exact ih e _ _ _
    · rw [if_neg hle, if_neg hle]
      rfl

theorem Cache.ext_slot {c c' : Cache} (h : ∀ t, t = 7 ∨ t = 8 ∨ t = 5 → c.slot t = c'.slot t) :
    c = c' := by
  have h7 := h 7 (Or.inl rfl)
  have h8 := h 8 (Or.inr (Or.inl rfl))
  have h5 := h 5 (Or.inr (Or.inr rfl))
  cases c
  cases c'
  simp only [Cache.slot] at h7 h8 h5
  simp [h7, h8, h5]

/-- Applying the visits of one scan a second time changes nothing. -/
theorem foldl_cacheStep_idem (sample : Bytes) (vs : List Visit) (c : Cache) :
    vs.foldl (cacheStep sample) (vs.foldl (cacheStep sample) c) =
      vs.foldl (cacheStep sample) c := by
  apply Cache.ext_slot
  intro t ht
  rw [foldl_cacheStep_slot sample t ht vs (vs.foldl (cacheStep sample) c),
    foldl_cacheStep_slot sample t ht vs c]
  cases lastOfType t vs <;> rfl

/-- Visits of untracked types only leave the cache as it is. -/
theorem foldl_cacheStep_other (sample : Bytes) (vs : List Visit) (c : Cache)
    (h : ∀ v ∈ vs, v.type ≠ 7 ∧ v.type ≠ 8 ∧ v.type ≠ 5) :
    vs.foldl (cacheStep sample) c = c := by
  induction vs generalizing c with
  | nil => rfl
  | cons v vs ih =>
    obtain ⟨h7, h8, h5⟩ := h v (List.mem_cons_self _ _)
    rw [List.foldl_cons, cacheStep, observe_other _ _ _ h7 h8 h5]
    exact ih c (fun w hw => h w (List.mem_cons_of_mem _ hw))

theorem parseTrace_fold {c c' : Cache} {buf : Bytes} {vs : List Visit}
    (h : parseTrace c buf = .ok (c', vs)) : c' = vs.foldl (cacheStep buf) c := by
  obtain ⟨ws, h1, h2, -⟩ := scan_spec buf _ _ _ _ _ h
  simp only [List.nil_append] at h1 h2
  rw [h2, h1]

/-- C15: `parseNALUs(b)` called twice in a row gives what one call gives, for every
cache and every buffer: the same cache when the call runs to its end, and the same
fault otherwise. -/
theorem parseNALUs_idempotent (c : Cache) (b : Bytes) :
    (parseNALUs c b).bind (fun c1 => parseNALUs c1 b) = parseNALUs c b := by
  cases h : parseTrace c b with
  | error e => simp [parseNALUs, h, Except.map, Except.bind]
  | ok r =>
    obtain ⟨c1, vs⟩ := r
    have h1 : parseNALUs c b = .ok c1 := by simp [parseNALUs, h, Except.map]
    have hind := scan_visits_indep b (b.length + 1) 0 c c1 []
    have h' : parseTrace c b = .ok (c1, vs) := h
    unfold parseTrace at h'
    rw [h'] at hind
    cases h2 : parseTrace c1 b with
    | error e =>
      unfold parseTrace at h2
      rw [h2] at hind
      cases hind
    | ok r2 =>
      obtain ⟨c2, vs2⟩ := r2
      have h2' : parseTrace c1 b = .ok (c2, vs2) := h2
      unfold parseTrace at h2'
      rw [h2'] at hind
      simp only [Except.map, Except.ok.injEq] at hind
      subst hind
      have e1 := parseTrace_fold h
      have e2 := parseTrace_fold h2
      have : c2 = c1 := by rw [e2, e1]; exact foldl_cacheStep_idem b vs c
      rw [h1]
      simp [Except.bind, parseNALUs, h2, Except.map, this]

/-- C16: `stop()` leaves the cache as it is; a completed `loadNextSample()`, with or
without a rewind of the source, either leaves the cache as it is or stored a sample
and left the cache that `parseNALUs` makes of the old cache and the new sample; when
the scan of the new sample visits no unit of type 7, 8 or 5, the cache after the tick
is the cache before it. -/
theorem cache_survives_stop_and_restart (encode : List Frame → Frame → Bytes) (fuel : Nat)
    (s s' : MP4FileParser) (h : loadNextSample encode fuel s = .ok s') :
    (stop s).cache = s.cache ∧ (stop s').cache = s'.cache ∧
    (s'.cache = s.cache ∨
      (s'.stored = s.stored + 1 ∧ parseNALUs s.cache (getSample s') = .ok s'.cache)) ∧
    (∀ (c' : Cache) (vs : List Visit), parseTrace s.cache (getSample s') = .ok (c', vs) →
      (∀ v ∈ vs, v.type ≠ 7 ∧ v.type ≠ 8 ∧ v.type ≠ 5) → s'.cache = s.cache) := by
  have F := loadNextSample_facts encode fuel s s' h
  refine ⟨rfl, rfl, ?_, ?_⟩
  · rcases F.outcome with ⟨-, -, -, e4⟩ | ⟨e1, fed, fr, -, -, -, -, -, e7⟩
    · exact Or.inl e4
    · exact Or.inr ⟨e1, e7⟩
  · intro c' vs ht hother
    rcases F.outcome with ⟨-, -, -, e4⟩ | ⟨e1, fed, fr, -, -, -, -, -, e7⟩
    · exact e4
    · have hc : c' = s'.cache := by
        have : parseNALUs s.cache (getSample s') = .ok c' := by
          simp [parseNALUs, ht, Except.map]
        unfold getSample at this
        rw [e7] at this
        cases this
        rfl
      rw [← hc, parseTrace_fold ht]
      exact foldl_cacheStep_other _ vs s.cache hother

/-- C16 at work: a tick that rewinds the source and stores a sample whose only unit
has type 1; the cached SPS, PPS and IDR units stay. -/
theorem cache_survives_stop_and_restart_witness :
    loadNextSample encodeKeyframe 1
        ⟨true, 1, 40000, [11], 1, [11], 1, [0, 0, 0, 1, 0x41, 9, 9, 9, 9], 40000,
          ⟨some [0, 0, 0, 1, 0x65, 1, 2], some [0, 0, 0, 1, 0x67, 1, 2], some [0, 0, 0, 1, 0x68, 3]⟩,
          0, 1⟩
      = .ok
        ⟨true, 1, 40000, [11], 1, [11, 11], 1, [0, 0, 0, 1, 0x41, 9, 9, 9, 9], 40000,
          ⟨some [0, 0, 0, 1, 0x65, 1, 2], some [0, 0, 0, 1, 0x67, 1, 2], some [0, 0, 0, 1, 0x68, 3]⟩,
          1, 2⟩ ∧
    (⟨true, 1, 40000, [11], 1, [11, 11], 1, [0, 0, 0, 1, 0x41, 9, 9, 9, 9], 40000,
        ⟨some [0, 0, 0, 1, 0x65, 1, 2], some [0, 0, 0, 1, 0x67, 1, 2], some [0, 0, 0, 1, 0x68, 3]⟩,
        1, 2⟩ : MP4FileParser).cache =
      ⟨some [0, 0, 0, 1, 0x65, 1, 2], some [0, 0, 0, 1, 0x67, 1, 2], some [0, 0, 0, 1, 0x68, 3]⟩ :=
  ⟨by decide,
    (cache_survives_stop_and_restart encodeKeyframe 1
      ⟨true, 1, 40000, [11], 1, [11], 1, [0, 0, 0, 1, 0x41, 9, 9, 9, 9], 40000,
        ⟨some [0, 0, 0, 1, 0x65, 1, 2], some [0, 0, 0, 1, 0x67, 1, 2], some [0, 0, 0, 1, 0x68, 3]⟩,
        0, 1⟩
      ⟨true, 1, 40000, [11], 1, [11, 11], 1, [0, 0, 0, 1, 0x41, 9, 9, 9, 9], 40000,
        ⟨some [0, 0, 0, 1, 0x65, 1, 2], some [0, 0, 0, 1, 0x67, 1, 2], some [0, 0, 0, 1, 0x68, 3]⟩,
        1, 2⟩ (by decide)).2.2.2
      ⟨some [0, 0, 0, 1, 0x65, 1, 2], some [0, 0, 0, 1, 0x67, 1, 2], some [0, 0, 0, 1, 0x68, 3]⟩
      [⟨0, 4, 6, 1⟩] (by decide) (by decide)⟩

/-! ## Adjacent start codes -/

theorem startCodeAt_bytes {buf : Bytes} {i : Nat} (h : startCodeAt buf i = true) :
    buf[i]? = some 0 ∧ buf[i + 1]? = some 0 ∧ buf[i + 2]? = some 0 ∧ buf[i + 3]? = some 1 := by
  unfold startCodeAt at h
  have h4 : (buf.drop i).take 4 = [0, 0, 0, 1] := by simpa using h
  have key : ∀ k, k < 4 → buf[i + k]? = ([0, 0, 0, 1] : List Nat)[k]? := by
    intro k hk
    rw [← h4, List.getElem?_take_of_lt hk, List.getElem?_drop]
  exact ⟨by simpa using key 0 (by omega), by simpa using key 1 (by omega),
    by simpa using key 2 (by omega), by simpa using key 3 (by omega)⟩

theorem startCodeAt_le {buf : Bytes} {i : Nat} (h : startCodeAt buf i = true) :
    i + 4 ≤ buf.length := by
  have h3 := (startCodeAt_bytes h).2.2.2
  have := (List.getElem?_eq_some.1 h3).1
  omega

/-- Two occurrences of `00 00 00 01` do not overlap. -/
theorem startCodeAt_apart {buf : Bytes} {j i : Nat} (hj : startCodeAt buf j = true)
    (hi : startCodeAt buf i = true) (hlt : j < i) : j + 4 ≤ i := by
  obtain ⟨-, -, -, j3⟩ := startCodeAt_bytes hj
  obtain ⟨i0, i1, i2, -⟩ := startCodeAt_bytes hi
  by_contra hcon
  have hcases : i = j + 1 ∨ i = j + 2 ∨ i = j + 3 := by omega
  rcases hcases with rfl | rfl | rfl
  · rw [show j + 1 + 2 = j + 3 by omega, j3] at i2
    cases i2
  · rw [show j + 2 + 1 = j + 3 by omega, j3] at i1
    cases i1
  · rw [j3] at i0
    cases i0

/-- The outer loop, started at or before a start code, comes to the head of the loop
at the offset of that start code. -/
theorem scan_reaches (sample : Bytes) (i : Nat) (hi : startCodeAt sample i = true) :
    ∀ (fuel j : Nat) (c : Cache) (seen : List Visit) (r : Cache × List Visit),
      j ≤ i → scan sample fuel j c seen = .ok r →
      ∃ fuel' c' pre, scan sample fuel' i c' (seen ++ pre) = .ok r := by
  intro fuel
  induction fuel with
  | zero => intro j c seen r _ h; simp [scan] at h
  | succ fuel ih =>
    intro j c seen r hji h
    by_cases hje : j = i
    · subst hje
      exact ⟨fuel + 1, c, [], by simpa using h⟩
    · have hlt : j < i := by omega
      have hile := startCodeAt_le hi
      unfold scan at h
      have hle : j + 4 ≤ sample.length := by omega
      rw [if_pos hle, isStartCode_of_le _ _ hle] at h
      simp only [Except.bind] at h
      cases hsc : startCodeAt sample j
      · rw [hsc] at h
        exact ih (j + 1) c seen r (by omega) (by simpa using h)
      · rw [hsc] at h
        simp only [Bool.not_true, Bool.false_eq_true, if_false] at h
        obtain ⟨e, he1, he2, he3, he4, he5⟩ := findEnd_spec sample (sample.length + 1) (j + 4)
          (by omega) (by omega)
        rw [he1] at h
        cases hrb : readByte sample (j + 4) with
        | error x => rw [hrb] at h; cases h
        | ok b =>
          rw [hrb] at h
          have hapart := startCodeAt_apart hsc hi hlt
          have hei : e ≤ i := by
            by_contra hcon
            have := he4 i hapart (by omega)
            rw [hi] at this
            cases this
          obtain ⟨fuel', c', pre, hp⟩ := ih e _ _ r hei h
          exact ⟨fuel', c', _ :: pre, by simpa using hp⟩

/-- One turn of the outer loop at a start code. -/
theorem scan_at_start_code (sample : Bytes) (fuel i : Nat) (c : Cache) (seen : List Visit)
    (r : Cache × List Visit) (hi : startCodeAt sample i = true)
    (h : scan sample fuel i c seen = .ok r) :
    ∃ fuel' e b, findEnd sample (sample.length + 1) (i + 4) = .ok e ∧
      sample[i + 4]? = some b ∧
      scan sample fuel' e (observe c (unitType b) (slice sample i e))
        (seen ++ [⟨i, i + 4, e, unitType b⟩]) = .ok r := by
  cases fuel with
  | zero => simp [scan] at h
  | succ fuel =>
    have hle := startCodeAt_le hi
    unfold scan at h
    rw [if_pos hle, isStartCode_of_le _ _ hle, hi] at h
    simp only [Except.bind, Bool.not_true, Bool.false_eq_true, if_false] at h
    cases hfe : findEnd sample (sample.length + 1) (i + 4) with
    | error x => rw [hfe] at h; cases h
    | ok e =>
      rw [hfe] at h
      cases hrb : readByte sample (i + 4) with
      | error x => rw [hrb] at h; cases h
      | ok b =>
        rw [hrb] at h
        exact ⟨fuel, e, b, rfl, readByte_eq_ok hrb, h⟩

/-- C17: when start codes lie at `i` and at `i + 4`, a run of `parseNALUs` that comes
to its end (as it does on every buffer that does not end with a start code) visits the
unit at `i` with the empty range `[i + 4, i + 4)` and type 0, which is no tracked type
and changes no cache, and visits the unit of the start code at `i + 4` directly after
it. -/
theorem parseNALUs_adjacent_start_codes (c : Cache) (buf : Bytes) (i : Nat)
    (h0 : startCodeAt buf i = true) (h4 : startCodeAt buf (i + 4) = true) :
    (¬ [0x00, 0x00, 0x00, 0x01] <:+ buf → ∃ r, parseTrace c buf = .ok r) ∧
    ∀ (c' : Cache) (vs : List Visit), parseTrace c buf = .ok (c', vs) →
      (∃ pre e t post,
        vs = pre ++ ⟨i, i + 4, i + 4, 0⟩ :: ⟨i + 4, i + 8, e, t⟩ :: post) ∧
      slice buf (i + 4) (i + 4) = [] ∧
      (∀ c0 : Cache, cacheStep buf c0 ⟨i, i + 4, i + 4, 0⟩ = c0) := by
  refine ⟨fun hend => scan_ok buf hend _ _ _ _ (by omega) (by omega), ?_⟩
  intro c' vs h
  refine ⟨?_, by simp [slice], fun c0 => rfl⟩
  obtain ⟨f1, c1, pre, hp⟩ := scan_reaches buf i h0 _ 0 c [] (c', vs) (by omega) h
  obtain ⟨f2, e1, b1, hfe1, hb1, hs1⟩ := scan_at_start_code buf f1 i c1 _ _ h0 hp
  obtain ⟨e', he1, he2, he3, he4, he5⟩ := findEnd_spec buf (buf.length + 1) (i + 4)
    (by omega) (by omega)
  have hee : e1 = i + 4 := by
    rw [hfe1] at he1
    cases he1
    by_contra hcon
    have := he4 (i + 4) (le_refl _) (by omega)
    rw [h4] at this
    cases this
  have hbz : b1 = 0 := by
    have := (startCodeAt_bytes h4).1
    rw [hb1] at this
    cases this
    rfl
  subst hee
  subst hbz
  obtain ⟨f3, e2, b2, -, -, hs2⟩ := scan_at_start_code buf f2 (i + 4) _ _ _ h4 hs1
  obtain ⟨ws, hw, -⟩ := scan_spec buf _ _ _ _ _ hs2
  refine ⟨pre, e2, unitType b2, ws, ?_⟩
  simp only [List.nil_append] at hw
  have h0t : unitType 0 = 0 := rfl
  rw [h0t] at hw
  simpa using hw

/-- C17 at work on `00 00 00 01 | 00 00 00 01 67 01 02 03 04`. -/
theorem parseNALUs_adjacent_start_codes_witness :
    parseTrace Cache.empty [0, 0, 0, 1, 0, 0, 0, 1, 0x67, 1, 2, 3, 4] =
      .ok (⟨none, some [0, 0, 0, 1, 0x67, 1], none⟩, [⟨0, 4, 4, 0⟩, ⟨4, 8, 10, 7⟩]) ∧
    ∃ pre e t post,
      [(⟨0, 4, 4, 0⟩ : Visit), ⟨4, 8, 10, 7⟩] =
        pre ++ ⟨0, 0 + 4, 0 + 4, 0⟩ :: ⟨0 + 4, 0 + 8, e, t⟩ :: post :=
  ⟨by decide,
    ((parseNALUs_adjacent_start_codes Cache.empty [0, 0, 0, 1, 0, 0, 0, 1, 0x67, 1, 2, 3, 4] 0
      (by decide) (by decide)).2 ⟨none, some [0, 0, 0, 1, 0x67, 1], none⟩
      [⟨0, 4, 4, 0⟩, ⟨4, 8, 10, 7⟩] (by decide)).1⟩

/-! ## Termination -/

theorem readByte_error {sample : Bytes} {i : Nat} {e : Fault}
    (h : readByte sample i = .error e) : e = .outOfRange := by
  unfold readByte at h
  split at h
  · cases h
  · cases h; rfl

/-- The outer loop of the scan does not run out of fuel. -/
theorem scan_fuel (sample : Bytes) :
    ∀ (fuel i : Nat) (c : Cache) (seen : List Visit), 0 < fuel → sample.length < fuel + i →
      scan sample fuel i c seen ≠ .error .outOfFuel := by
  intro fuel
  induction fuel with
  | zero => intro i c seen h; omega
  | succ fuel ih =>
    intro i c seen _ hlen
    unfold scan
    by_cases hle : i + 4 ≤ sample.length
    · rw [if_pos hle, isStartCode_of_le _ _ hle]
      simp only [Except.bind]
      cases hsc : startCodeAt sample i
      · simpa using ih (i + 1) c seen (by omega) (by omega)
      · simp only [Bool.not_true, Bool.false_eq_true, if_false]
        obtain ⟨e, he1, he2, -⟩ := findEnd_spec sample (sample.length + 1) (i + 4)
          (by omega) (by omega)
        rw [he1]
        cases hrb : readByte sample (i + 4) with
        | error x =>
          rw [readByte_error hrb]
          simp
        | ok b => exact ih e _ _ (by omega) (by omega)
    · rw [if_neg hle]
      simp

theorem parseNALUs_fuel (c : Cache) (buf : Bytes) : parseNALUs c buf ≠ .error .outOfFuel := by
  have h := scan_fuel buf (buf.length + 1) 0 c [] (by omega) (by omega)
  unfold parseNALUs parseTrace
  cases hs : scan buf (buf.length + 1) 0 c [] with
  | error e =>
    rw [hs] at h
    simpa [Except.map] using h
  | ok r => simp [Except.map]

/-- With looping enabled and a source of one picture, a call with the encoder that
returns nothing is out of fuel whatever the fuel is. -/
theorem loadNextSample_encodeNothing (fuel : Nat) :
    ∀ s : MP4FileParser, s.loop = true → s.frames = [10] →
      loadNextSample encodeNothing fuel s = .error .outOfFuel := by
  induction fuel with
  | zero => intro s _ _; rfl
  | succ fuel ih =>
    intro s hl hf
    unfold loadNextSample
    cases hacq : acquire s with
    | mk s1 fo =>
    cases fo with
    | none =>
      obtain ⟨-, hc⟩ := acquire_none hacq
      rcases hc with ⟨hl', -⟩ | ⟨-, h0, -⟩
      · rw [hl] at hl'; cases hl'
      · rw [hf] at h0; simp at h0
    | some frame =>
      obtain ⟨a1, -, -, a4, -⟩ := acquire_some hacq
      simp only [encodeNothing, List.isEmpty_nil, if_true]
      exact ih _ (by simp only; rw [a1, hl]) (by simp only; rw [a4, hf])

/-- C13 fails with looping enabled, a source of one picture and an encoder that
returns an empty buffer for every picture: no amount of fuel lets `loadNextSample()`
come to its end. -/
theorem loadNextSample_never_returns :
    ¬ ∃ fuel, loadNextSample encodeNothing fuel (MP4FileParser.new [10] 40000 1 true)
        ≠ .error .outOfFuel := by
  rintro ⟨fuel, h⟩
  exact h (loadNextSample_encodeNothing fuel _ rfl rfl)

/-- With looping disabled the call ends within one read more than pictures are left. -/
theorem loadNextSample_fuel_noloop (encode : List Frame → Frame → Bytes) :
    ∀ (n : Nat) (s : MP4FileParser), s.loop = false → s.frames.length - s.pos ≤ n →
      loadNextSample encode (n + 1) s ≠ .error .outOfFuel := by
  intro n
  induction n with
  | zero =>
    intro s hl hn
    have hnone : s.frames[s.pos]? = none := List.getElem?_eq_none (by omega)
    simp [loadNextSample, acquire, capRead, hnone, hl]
  | succ n ih =>
    intro s hl hn
    unfold loadNextSample
    cases hacq : acquire s with
    | mk s1 fo =>
    cases fo with
    | none => simp
    | some frame =>
      obtain ⟨a1, -, -, a4, -, -, -, -, -, -, -, a12, a13⟩ := acquire_some hacq
      have hr : s1.restarts = s.restarts := by
        by_contra hcon
        have := (a13 hcon).2.2.2.1
        rw [hl] at this
        cases this
      obtain ⟨p1, -, p3⟩ := a12 hr
      have hlt := (List.getElem?_eq_some.1 p3).1
      simp only
      by_cases hemp : (encode s1.fed frame).isEmpty = true
      · rw [if_pos hemp]
        exact ih _ (by simp only; rw [a1, hl]) (by simp only; rw [a4, p1]; omega)
      · rw [if_neg hemp]
        intro hcon
        cases hp : parseNALUs s1.cache (encode s1.fed frame) with
        | error e =>
          rw [hp] at hcon
          simp only [Except.map, Except.error.injEq] at hcon
          exact parseNALUs_fuel _ _ (by rw [hp, hcon])
        | ok c => rw [hp] at hcon; simp [Except.map] at hcon

/-- A call that is out of fuel after `k` reads got an empty buffer for each of the `k`
pictures it passed to the encoder. -/
theorem loadNextSample_outOfFuel (encode : List Frame → Frame → Bytes) :
    ∀ (k : Nat) (s : MP4FileParser), loadNextSample encode k s = .error .outOfFuel →
      ∃ fs : List Frame, fs.length = k ∧ (∀ f ∈ fs, f ∈ s.frames) ∧
        ∀ (j : Nat) (hj : j < fs.length), encode (s.fed ++ fs.take j) (fs.get ⟨j, hj⟩) = [] := by
  intro k
  induction k with
  | zero => intro s _; exact ⟨[], rfl, by simp, fun j hj => absurd hj (by simp)⟩
  | succ k ih =>
    intro s h
    unfold loadNextSample at h
    cases hacq : acquire s with
    | mk s1 fo =>
    rw [hacq] at h
    cases fo with
    | none => cases h
    | some frame =>
      obtain ⟨-, -, -, a4, a5, -, -, -, -, -, -, a12, a13⟩ := acquire_some hacq
      have hmem : frame ∈ s.frames := by
        by_cases hr : s1.restarts = s.restarts
        · exact List.getElem?_mem (a12 hr).2.2
        · exact List.getElem?_mem (a13 hr).2.2.2.2.2
      simp only at h
      by_cases hemp : (encode s1.fed frame).isEmpty = true
      · rw [if_pos hemp] at h
        obtain ⟨fs, h1, h2, h3⟩ := ih _ h
        simp only at h2 h3
        refine ⟨frame :: fs, by simp [h1], ?_, ?_⟩
        · intro f hf
          rcases List.mem_cons.1 hf with rfl | hf
          · exact hmem
          · rw [← a4]; exact h2 f hf
        · intro j hj
          cases j with
          | zero =>
            simp only [List.take_zero, List.append_nil, List.get_eq_getElem,
              List.getElem_cons_zero]
            rw [← a5]
            exact List.isEmpty_iff.1 hemp
          | succ j =>
            have := h3 j (by simpa using hj)
            simp only [List.get_eq_getElem, List.take_succ_cons, List.getElem_cons_succ] at this ⊢
            rw [← a5]
            simpa using this
      · rw [if_neg hemp] at h
        exfalso
        cases hp : parseNALUs s1.cache (encode s1.fed frame) with
        | error e =>
          rw [hp] at h
          simp only [Except.map, Except.error.injEq] at h
          exact parseNALUs_fuel _ _ (by rw [hp, h])
        | ok c => rw [hp] at h; simp [Except.map] at h

/-- C13, amended: `loadNextSample()` comes to its end, for every encoder, when looping
is disabled (within one read more than pictures are left in the source) and when the
source is empty; and a call that has not come to its end after `k` reads has passed
`k` pictures of the source to the encoder and got an empty buffer for each of them. -/
theorem loadNextSample_terminates (encode : List Frame → Frame → Bytes) (s : MP4FileParser) :
    (s.loop = false →
      loadNextSample encode (s.frames.length - s.pos + 1) s ≠ .error .outOfFuel) ∧
    (s.frames = [] → loadNextSample encode 1 s ≠ .error .outOfFuel) ∧
    (∀ k, loadNextSample encode k s = .error .outOfFuel →
      ∃ fs : List Frame, fs.length = k ∧ (∀ f ∈ fs, f ∈ s.frames) ∧
        ∀ (j : Nat) (hj : j < fs.length),
          encode (s.fed ++ fs.take j) (fs.get ⟨j, hj⟩) = []) := by
  refine ⟨fun hl => loadNextSample_fuel_noloop encode _ s hl (le_refl _), ?_,
    fun k => loadNextSample_outOfFuel encode k s⟩
  intro hf h
  obtain ⟨fs, h1, h2, -⟩ := loadNextSample_outOfFuel encode 1 s h
  cases fs with
  | nil => simp at h1
  | cons f fs =>
    have := h2 f (List.mem_cons_self _ _)
    rw [hf] at this
    cases this

/-- C13, amended, at work: looping disabled, two pictures, the encoder that returns
nothing; the call ends with three units of fuel. -/
theorem loadNextSample_terminates_witness :
    loadNextSample encodeNothing 3 (MP4FileParser.new [10, 11] 40000 1 false) ≠
      .error .outOfFuel :=
  (loadNextSample_terminates encodeNothing (MP4FileParser.new [10, 11] 40000 1 false)).1 rfl

end MP4
